import Mathlib

/-!
# Verification of the plox mod-sorter core

A shallow embedding of the plox repository's core: the boolean expression
evaluator and warning rules (`src/rules.rs`), the rules-document chunker and
rule-body parsers (`src/parser.rs`), and the cycle-checked stable topological
sorter (`src/lib.rs`), together with theorems settling the specification
claims about them.

Machine integers: all indices in the source are `usize` used only as list
indices; they are embedded as `Nat` (no overflow is reachable because every
value is bounded by a list length).
-/

namespace Plox

/-! ## Expressions

`expressions.rs` is not part of the sources under verification; only its
callers (`rules.rs`, `parser.rs`) and its tests are.  The expression data
model and its evaluation are therefore modelled from the specification.
-/

/-- Modelled from the spec: the expression AST of §3 of the specification
(`expressions.rs` itself is missing from the sources).  `Atomic` holds a mod
identifier; `ALL`/`ANY`/`NOT` are the boolean connectives; `DESC` carries a
child expression, a regex pattern and a negation flag. -/
inductive Expression where
  | Atomic (item : String)
  | ALL (children : List Expression)
  | ANY (children : List Expression)
  | NOT (child : Expression)
  | DESC (child : Expression) (pattern : String) (negated : Bool)

mutual

/-- Modelled from the spec (§4.4): evaluation of an expression against a mod
list.  The description lookup used by `DESC` is an external capability
(description-provider plus regex match); it is abstracted as the oracle
`dm`, which answers whether the description of the mod named by the child
expression matches the pattern.  `Atomic` compares ASCII-lowercased. -/
def Expression.eval (dm : Expression → String → Bool) :
    Expression → List String → Bool
  | .Atomic item, items => (items.map String.toLower).contains item.toLower
  | .ALL children, items => Expression.evalList dm children items
  | .ANY children, items => Expression.evalAny dm children items
  | .NOT child, items => !(Expression.eval dm child items)
  | .DESC child pattern negated, items =>
      Expression.eval dm child items && (xor (dm child pattern) negated)

/-- Conjunction over a list of children (the `ALL` case). -/
def Expression.evalList (dm : Expression → String → Bool) :
    List Expression → List String → Bool
  | [], _ => true
  | c :: cs, items => Expression.eval dm c items && Expression.evalList dm cs items

/-- Disjunction over a list of children (the `ANY` case). -/
def Expression.evalAny (dm : Expression → String → Bool) :
    List Expression → List String → Bool
  | [], _ => false
  | c :: cs, items => Expression.eval dm c items || Expression.evalAny dm cs items

end

/-! ## Warning rules (`src/rules.rs`)

The four warning-rule structs and their `TWarningRule::eval` implementations,
embedded from `src/rules.rs`.  Each Rust struct field is kept with its source
name; `Option<Expression>` becomes `Option Expression`.
-/

/-- Embeds `Note` from `rules.rs`: comment plus a list of expressions. -/
structure Note where
  comment : String
  expressions : List Expression

/-- Embeds `Note::eval`: true if any of the contained expressions evaluates true
(`rules.rs` lines 402-409). -/
def Note.eval (dm : Expression → String → Bool) (r : Note) (items : List String) : Bool :=
  r.expressions.any (fun e => Expression.eval dm e items)

/-- Embeds `Conflict` from `rules.rs`. -/
structure Conflict where
  comment : String
  expressions : List Expression

/-- Embeds `Conflict::eval`: counts the expressions that evaluate true and returns
whether more than one did (`rules.rs` lines 462-471). -/
def Conflict.eval (dm : Expression → String → Bool) (r : Conflict) (items : List String) : Bool :=
  decide (1 < r.expressions.countP (fun e => Expression.eval dm e items))

/-- Embeds `Requires` from `rules.rs`: the two operands are `Option`s, `None` in a
default-constructed rule. -/
structure Requires where
  comment : String
  expression_a : Option Expression
  expression_b : Option Expression

/-- Embeds `Requires::eval` (`rules.rs` lines 525-534): `A && !B` when both operands
are present, `false` as soon as either is absent (the nested `if let` falls
through to `false`). -/
def Requires.eval (dm : Expression → String → Bool) (r : Requires) (items : List String) : Bool :=
  match r.expression_a, r.expression_b with
  | some expr_a, some expr_b =>
      Expression.eval dm expr_a items && !(Expression.eval dm expr_b items)
  | _, _ => false

/-- Embeds `Patch` from `rules.rs`. -/
structure Patch where
  comment : String
  expression_a : Option Expression
  expression_b : Option Expression

/-- Embeds `Patch::eval` (`rules.rs` lines 591-601): `(A && !B) || (B && !A)` when
both operands are present, `false` otherwise. -/
def Patch.eval (dm : Expression → String → Bool) (r : Patch) (items : List String) : Bool :=
  match r.expression_a, r.expression_b with
  | some expr_a, some expr_b =>
      (Expression.eval dm expr_a items && !(Expression.eval dm expr_b items))
        || (Expression.eval dm expr_b items && !(Expression.eval dm expr_a items))
  | _, _ => false

/-! ## Topological sorter (`src/lib.rs`)

`topo_sort` builds an index graph over the mod list, filters the ordering
pairs down to those whose two endpoints occur in the mod list, runs the
cycle check of the external `toposort_scc` crate (whose documented contract
is: `toposort` returns `None` exactly when the graph contains a cycle), and
then repeatedly applies `stable_topo_sort_inner` until a pass makes no
change.  The cycle check is embedded as a reachability saturation
(`satReach`) which is proved equivalent to the existence of a directed
cycle.
-/

/-- One-step successors of the vertex set `s` along `edges`. -/
def stepSet (edges : List (Nat × Nat)) (s : Finset Nat) : Finset Nat :=
  ((edges.filter (fun p => decide (p.1 ∈ s))).map Prod.snd).toFinset

/-- One saturation step: add all one-step successors. -/
def satStep (edges : List (Nat × Nat)) (s : Finset Nat) : Finset Nat :=
  s ∪ stepSet edges s

/-- All vertices reachable from `v` by a nonempty path: saturation of the
successor step, iterated enough times (`edges.length + 1`) to reach the
least fixed point. -/
def satReach (edges : List (Nat × Nat)) (v : Nat) : Finset Nat :=
  (satStep edges)^[edges.length + 1] (stepSet edges {v})

/-- The edge relation of the index graph. -/
def edgeRel (edges : List (Nat × Nat)) (a b : Nat) : Prop := (a, b) ∈ edges

/-- Models the cycle check of `toposort_scc::IndexGraph::toposort` on a graph
with `n` vertices and the given edge list: `true` exactly when some vertex
reaches itself by a nonempty path (proved in `hasCycleB_iff`). -/
def hasCycleB (n : Nat) (edges : List (Nat × Nat)) : Bool :=
  (List.range n).any (fun v => decide (v ∈ satReach edges v))

/-! ### The height measure

For an acyclic edge list, `hVal v` — the number of vertices reachable from
`v` — strictly decreases along every edge.  The word of heights of the
working list strictly increases lexicographically with every move of
`stable_topo_sort_inner`, which bounds the number of passes.
-/

/-- Height of a vertex: how many vertices it reaches. -/
def hVal (edges : List (Nat × Nat)) (v : Nat) : Nat := (satReach edges v).card

/-- Base-`M` value of a word of digits.  For equal-length words whose digits
are below `M`, comparison of values agrees with lexicographic comparison. -/
def lexFold (M : Nat) (l : List Nat) : Nat :=
  l.foldl (fun acc v => acc * M + v) 0

/-! ### The sorter itself -/

/-- The inner double loop of `stable_topo_sort_inner` (`lib.rs` lines 24-35):
scan `i` in `0..n` and, for each `i`, `j` in `0..i`; report the first pair
of positions whose elements violate an edge, i.e. such that
`(index_dict[result[i]], index_dict[result[j]])` is in the edge list. -/
def findViol (edges : List (Nat × Nat)) (index_dict : String → Nat)
    (result : List String) (n : Nat) : Option (Nat × Nat) :=
  (List.range n).findSome? (fun i =>
    ((List.range i).find? (fun j =>
      decide ((index_dict (result.getD i ""), index_dict (result.getD j ""))
        ∈ edges))).map (fun j => (i, j)))

/-- The move performed by `stable_topo_sort_inner` when a violation at
`(i, j)` is found (`lib.rs` lines 29-31): remove the element at `i` and
re-insert it at `j`. -/
def applyMove (i j : Nat) (result : List String) : List String :=
  (result.eraseIdx i).insertIdx j (result.getD i "")

/-- Embeds `stable_topo_sort_inner` from `lib.rs` (lines 18-37).  The Rust function
mutates `result` and returns whether it moved something; the embedding
returns the flag together with the updated list. -/
def stable_topo_sort_inner (n : Nat) (edges : List (Nat × Nat))
    (index_dict : String → Nat) (result : List String) :
    Bool × List String :=
  match findViol edges index_dict result n with
  | some (i, j) => (true, applyMove i j result)
  | none => (false, result)

/-- The `loop` of `topo_sort` (`lib.rs` lines 67-71): keep applying
`stable_topo_sort_inner` until it reports no change.  The Rust loop is
unbounded; the embedding carries fuel, and `topo_sort` passes enough fuel
for the fixed point to be reached whenever the cycle check has passed
(`sortPasses_findViol_none`). -/
def sortPasses (n : Nat) (edges : List (Nat × Nat))
    (index_dict : String → Nat) : Nat → List String → List String
  | 0, result => result
  | fuel + 1, result =>
    match stable_topo_sort_inner n edges index_dict result with
    | (false, r) => r
    | (true, r) => sortPasses n edges index_dict fuel r

/-- The ordering pairs whose two endpoints both occur in the mod list
(`lib.rs` lines 50-51: `if mods.contains(a) && mods.contains(b)`). -/
def presentPairs (mods : List String) (order : List (String × String)) :
    List (String × String) :=
  order.filter (fun p => decide (p.1 ∈ mods) && decide (p.2 ∈ mods))

/-- The index pairs fed to the graph and to `stable_topo_sort_inner`
(`lib.rs` lines 49-57): each present pair mapped through `index_dict`,
which sends a mod to its index in `mods`. -/
def presentEdges (mods : List String) (order : List (String × String)) :
    List (Nat × Nat) :=
  (presentPairs mods order).map
    (fun p => (mods.indexOf p.1, mods.indexOf p.2))

/-- The fuel `topo_sort` hands to `sortPasses`; any value at least
`(edges.length + 1) ^ mods.length` reaches the fixed point. -/
def sortFuel (mods : List String) (order : List (String × String)) : Nat :=
  ((presentEdges mods order).length + 1) ^ mods.length

/-- Embeds `topo_sort` from `lib.rs` (lines 39-75): build the index dictionary and
the present edge list, run the cycle check (`toposort_scc::toposort` is
`None` exactly on cyclic graphs, embedded as `hasCycleB`), and on success
run the stable-sort loop starting from a copy of `mods`. -/
def topo_sort (mods : List String) (order : List (String × String)) :
    Except String (List String) :=
  if hasCycleB mods.length (presentEdges mods order) then
    .error "Graph contains a cycle"
  else
    .ok (sortPasses mods.length (presentEdges mods order)
      (fun m => mods.indexOf m) (sortFuel mods order) mods)

/-! ### The measure strictly increases with every move -/

/-- The base-`(edges.length + 1)` value of the word of heights of the
working list. -/
def phi (edges : List (Nat × Nat)) (index_dict : String → Nat)
    (r : List String) : Nat :=
  lexFold (edges.length + 1) (r.map (fun s => hVal edges (index_dict s)))

/-- A cycle among the ordering pairs whose two endpoints both occur in the
mod list: some mod reaches itself by a nonempty chain of present pairs. -/
def hasRuleCycle (mods : List String) (order : List (String × String)) :
    Prop :=
  ∃ s, Relation.TransGen
    (fun a b => (a, b) ∈ presentPairs mods order) s s

/-! ## Rules-document parser (`src/parser.rs`)

The parser is embedded over `List Char` (the source operates on bytes of
UTF-8 strings; every relevant character is ASCII, where byte positions and
character positions coincide).  Rust `Result::Err` values and Rust panics
are distinguished: an `Err` is caught by `parse_rules_from_reader`'s
per-chunk recovery, while a panic (an out-of-range slice) aborts the whole
call.  Rust's Unicode `trim`/`to_lowercase` are modelled with
`Char.isWhitespace`/`Char.toLower`, which agree on ASCII input.
-/

/-- Outcome of a fallible parser step: `err` embeds a recoverable
`Result::Err`, `fatal` embeds a Rust panic (which unwinds through every
caller). -/
inductive PError where
  | err (msg : String)
  | fatal (msg : String)

/-- The `Parser` struct of `parser.rs`, reduced to the field the embedded
functions consult: the list of recognized extensions (the `game` tag only
selects rules filenames and is irrelevant here). -/
structure Parser where
  ext : List String

/-- Embeds `new_cyberpunk_parser()`: the Cyberpunk configuration. -/
def cyberpunk : Parser := ⟨[".archive"]⟩

/-- Rust `str::trim` on a character list. -/
def trimChars (l : List Char) : List Char :=
  ((l.dropWhile Char.isWhitespace).reverse.dropWhile Char.isWhitespace).reverse

/-- Rust `str::trim_start` on a character list. -/
def trimStartChars (l : List Char) : List Char :=
  l.dropWhile Char.isWhitespace

/-- Embeds `Parser::ends_with_vec` (`parser.rs` lines 314-324). -/
def ends_with_vec (p : Parser) (current_buffer : List Char) : Bool :=
  p.ext.any (fun e => e.data.isSuffixOf current_buffer)

/-- Embeds `Parser::ends_with_vec_whitespace` (lines 325-335): ends with an
extension followed by a space. -/
def ends_with_vec_whitespace (p : Parser) (current_buffer : List Char) : Bool :=
  p.ext.any (fun e => (e.data ++ [' ']).isSuffixOf current_buffer)

/-- Embeds `Parser::ends_with_vec2_whitespace_or_newline` (lines 336-348). -/
def ends_with_vec2_whitespace_or_newline (p : Parser)
    (current_buffer : List Char) : Bool :=
  p.ext.any (fun e => (e.data ++ [' ']).isSuffixOf current_buffer
    || (e.data ++ ['\n']).isSuffixOf current_buffer)

/-- The character loop of `Parser::tokenize` (lines 360-391), with state
`is_quoted`, the accumulating `current_token` and the collected tokens.
Inside a quoted segment a character that completes an extension-plus-space
suffix is appended a second time, exactly as in the source. -/
def tokenizeLoop (p : Parser) :
    List Char → Bool → List Char → List (List Char) → List (List Char)
  | [], _, current_token, tokens =>
    if current_token ≠ [] then tokens ++ [trimChars current_token] else tokens
  | c :: rest, is_quoted, current_token, tokens =>
    if c = '"' then
      if is_quoted then
        tokenizeLoop p rest false [] (tokens ++ [trimChars current_token])
      else
        tokenizeLoop p rest true current_token tokens
    else
      let current_token := current_token ++ [c]
      if ends_with_vec_whitespace p current_token then
        if !is_quoted then
          if current_token ≠ [] then
            tokenizeLoop p rest is_quoted [] (tokens ++ [trimChars current_token])
          else
            tokenizeLoop p rest is_quoted current_token tokens
        else
          tokenizeLoop p rest is_quoted (current_token ++ [c]) tokens
      else
        tokenizeLoop p rest is_quoted current_token tokens

/-- Embeds `Parser::tokenize` (lines 351-398): strip everything from the first
`;`, then split into tokens at extension boundaries, honoring quotes. -/
def tokenize (p : Parser) (line : List Char) : List (List Char) :=
  let line := if line.contains ';' then
    trimChars (line.takeWhile (fun c => c ≠ ';'))
  else line
  tokenizeLoop p line false [] []

/-- Split off the first line: the part before the first `'\n'` and the rest
after it (Rust `BufRead::read_line` reads through the newline). -/
def splitFirstLine (l : List Char) : List Char × List Char :=
  let line := l.takeWhile (fun c => c ≠ '\n')
  (line, l.drop (line.length + 1))

/-- Embeds `read_comment` (`parser.rs` lines 552-570): while the next character is
a space or tab, consume the line as a comment (trimmed, concatenated with
any further comment lines) and return the remaining reader content.  An
empty reader (`read_u8` fails) and a non-whitespace first character both
leave the reader unchanged and yield no comment.  The fuel argument stands
in for the structural termination argument (every recursive call consumes
at least one character, so any fuel above the input length is enough); the
callers pass the input length plus one. -/
def read_comment : Nat → List Char → Option (List Char) × List Char
  | 0, l => (none, l)
  | _ + 1, [] => (none, [])
  | fuel + 1, c :: rest =>
    if c = ' ' ∨ c = '\t' then
      let line := (splitFirstLine rest).1
      let rest' := (splitFirstLine rest).2
      let comment := trimChars line
      match read_comment fuel rest' with
      | (some c2, rest2) => (some (comment ++ c2), rest2)
      | (none, rest2) => (some comment, rest2)
    else
      (none, c :: rest)

/-- The byte loop of `parse_rule_expression` (`parser.rs` lines 600-632):
read until the bracket scope closes; end of input is a read error. -/
def parse_rule_expression_aux :
    Nat → List Char → List Char → Option (List Char × List Char)
  | _, _, [] => none
  | scope, buffer, c :: rest =>
    if c = '[' then
      parse_rule_expression_aux (scope + 1) (buffer ++ [c]) rest
    else if c = ']' then
      if scope = 1 then some (buffer ++ [c], rest)
      else parse_rule_expression_aux (scope - 1) (buffer ++ [c]) rest
    else
      parse_rule_expression_aux scope (buffer ++ [c]) rest

/-- Embeds `parse_rule_expression`: scope starts at 1 (the `[` was already
consumed by `parse_chunk`); returns the rule expression including its
closing `]` together with the unconsumed rest. -/
def parse_rule_expression (input : List Char) :
    Option (List Char × List Char) :=
  parse_rule_expression_aux 1 [] input

/-- First index of a character (Rust `str::find(char)`). -/
def findCharIdx (l : List Char) (c : Char) : Option Nat :=
  List.findIdx? (fun x => x = c) l

/-- Last index of a character (Rust `str::rfind(char)`). -/
def rfindCharIdx (l : List Char) (c : Char) : Option Nat :=
  match List.findIdx? (fun x => x = c) l.reverse with
  | some k => some (l.length - 1 - k)
  | none => none

/-- First index of the two-character needle `!/` (Rust
`str::find("!/")`). -/
def findBangSlash : List Char → Option Nat
  | '!' :: '/' :: _ => some 0
  | _ :: rest => (findBangSlash rest).map (fun k => k + 1)
  | [] => none

/-- Embeds `parse_desc_input` (`parser.rs` lines 572-598).  The first block fires
whenever the input contains a `/` at all; its slice `input[si+1..ei]`
panics when the input holds exactly one `/` (then `si = ei`).  The second
block (for `!/`) is dead code: a `!/` match implies a `/` match, so the
first block has already returned — in particular a leading `!` is simply
kept out of nothing: the pattern and child are extracted exactly as in the
non-negated form, and no negation information survives (the source marks
this `TODO fix negation`). -/
def parse_desc_input (input : List Char) :
    Except PError (Option (List Char × List Char)) :=
  match findCharIdx input '/' with
  | some start_index =>
    match rfindCharIdx input '/' with
    | some end_index =>
      if start_index + 1 > end_index then
        .error (.fatal "slice index starts after end")
      else
        let left_part := trimChars
          ((input.drop (start_index + 1)).take (end_index - (start_index + 1)))
        let right_part := trimChars (input.drop (end_index + 1))
        .ok (some (left_part, right_part))
    | none => .ok none
  | none =>
    match findBangSlash input with
    | some start_index =>
      match rfindCharIdx input '/' with
      | some end_index =>
        if start_index + 2 > end_index then
          .error (.fatal "slice index starts after end")
        else
          .ok (some (trimChars ((input.drop (start_index + 2)).take
              (end_index - (start_index + 2))),
            trimChars (input.drop (end_index + 1))))
      | none => .ok none
    | none => .ok none

/-- The mode of the chunking loop of `parse_expressions`
(`parser.rs` lines 412-414): idle, inside a bracketed expression, or
inside a bare token. -/
inductive CMode where
  | idle
  | inExpr
  | inToken

/-- The chunking loop of `parse_expressions` (lines 416-460): split the
buffer into bracket-balanced expression chunks and extension-terminated
token chunks; any unfinished buffer is pushed at the end. -/
def chunkExprs (p : Parser) :
    List Char → CMode → Nat → List Char → List (List Char) → List (List Char)
  | [], _, _, current_buffer, acc =>
    if current_buffer ≠ [] then acc ++ [current_buffer] else acc
  | b :: rest, CMode.inExpr, cnt, current_buffer, acc =>
    let cnt := if b = '[' then cnt + 1 else if b = ']' then cnt - 1 else cnt
    let current_buffer := current_buffer ++ [b]
    if cnt = 0 then
      chunkExprs p rest CMode.idle 0 [] (acc ++ [current_buffer])
    else
      chunkExprs p rest CMode.inExpr cnt current_buffer acc
  | b :: rest, CMode.inToken, cnt, current_buffer, acc =>
    let current_buffer := current_buffer ++ [b]
    if ends_with_vec2_whitespace_or_newline p current_buffer then
      chunkExprs p rest CMode.idle cnt [] (acc ++ [current_buffer.dropLast])
    else
      chunkExprs p rest CMode.inToken cnt current_buffer acc
  | b :: rest, CMode.idle, cnt, current_buffer, acc =>
    if b = '[' then
      chunkExprs p rest CMode.inExpr (cnt + 1) (current_buffer ++ [b]) acc
    else if !b.isWhitespace then
      chunkExprs p rest CMode.inToken cnt (current_buffer ++ [b]) acc
    else
      chunkExprs p rest CMode.idle cnt (current_buffer ++ [b]) acc

mutual

/-- Embeds `Parser::parse_expressions` (`parser.rs` lines 405-479): chunk the
buffer, trim the chunks, drop the empty ones and parse each in turn; the
first failure aborts.  The fuel argument replaces the structural
termination argument of the mutual recursion (every nested call works on a
strictly shorter buffer); it decreases on every call, so any fuel above
four times the buffer length is ample.  It is a device of the embedding,
not part of the source. -/
def parse_expressions (p : Parser) :
    Nat → List Char → Except PError (List Expression)
  | 0, _ => .error (.err "Parsing error: fuel exhausted")
  | fuel + 1, input =>
    let buffers := ((chunkExprs p input CMode.idle 0 [] []).map
      trimChars).filter (fun f => decide (f ≠ []))
    parseExprList p fuel buffers

/-- The per-chunk loop at the end of `parse_expressions`
(lines 468-476). -/
def parseExprList (p : Parser) :
    Nat → List (List Char) → Except PError (List Expression)
  | 0, _ => .error (.err "Parsing error: fuel exhausted")
  | _ + 1, [] => .ok []
  | fuel + 1, buffer :: rest =>
    match parse_expression p fuel buffer with
    | .error e => .error e
    | .ok it =>
      match parseExprList p fuel rest with
      | .error e => .error e
      | .ok its => .ok (it :: its)

/-- Embeds `Parser::parse_expression` (`parser.rs` lines 486-544).  The four
bracketed forms all take `rest[..rest.len() - 1]`, which panics when
`rest` is empty (an unterminated keyword such as a bare `[any`); the
panic is embedded as a `fatal` outcome.  `DESC::new` in the source takes
only the child and the pattern — no negation flag reaches the built
expression, so the modelled `negated` field is the constant `false`. -/
def parse_expression (p : Parser) :
    Nat → List Char → Except PError Expression
  | 0, _ => .error (.err "Parsing error: fuel exhausted")
  | fuel + 1, reader =>
    if ("[".data).isPrefixOf reader then
      if ("[any".data).isPrefixOf reader then
        let rest := reader.drop 4
        if rest.isEmpty then .error (.fatal "slice index out of range")
        else
          match parse_expressions p fuel (trimStartChars rest.dropLast) with
          | .error e => .error e
          | .ok expressions => .ok (Expression.ANY expressions)
      else if ("[all".data).isPrefixOf reader then
        let rest := reader.drop 4
        if rest.isEmpty then .error (.fatal "slice index out of range")
        else
          match parse_expressions p fuel (trimStartChars rest.dropLast) with
          | .error e => .error e
          | .ok expressions => .ok (Expression.ALL expressions)
      else if ("[not".data).isPrefixOf reader then
        let rest := reader.drop 4
        if rest.isEmpty then .error (.fatal "slice index out of range")
        else
          match parse_expressions p fuel (trimStartChars rest.dropLast) with
          | .error e => .error e
          | .ok expressions =>
            match expressions.getLast? with
            | some first => .ok (Expression.NOT first)
            | none => .error (.err "Parsing error: unknown expression")
      else if ("[desc".data).isPrefixOf reader then
        let rest := reader.drop 5
        if rest.isEmpty then .error (.fatal "slice index out of range")
        else
          let body := trimStartChars rest.dropLast
          match parse_desc_input body with
          | .error e => .error e
          | .ok (some (regex, expr)) =>
            match parse_expressions p fuel expr with
            | .error e => .error e
            | .ok expressions =>
              match expressions.getLast? with
              | some first =>
                .ok (Expression.DESC first (String.mk regex) false)
              | none => .error (.err "Parsing error: unknown expression")
          | .ok none => .error (.err "Parsing error: unknown expression")
      else
        .error (.err "Parsing error: unknown expression")
    else
      if !(ends_with_vec p reader) then
        .error (.err "Parsing error: Not an atomic")
      else
        .ok (Expression.Atomic (String.mk reader))

end

/-! ### Rule enums and body parsers (`src/rules.rs`) -/

/-- Embeds `Order` from `rules.rs`: a list of plugin names. -/
structure Order where
  names : List String

/-- Embeds `NearStart` from `rules.rs`. -/
structure NearStart where
  names : List String

/-- Embeds `NearEnd` from `rules.rs`. -/
structure NearEnd where
  names : List String

/-- Embeds `EOrderRule` from `rules.rs`. -/
inductive EOrderRule where
  | Order (o : Order)
  | NearStart (o : NearStart)
  | NearEnd (o : NearEnd)

/-- Embeds `EWarningRule` from `rules.rs`. -/
inductive EWarningRule where
  | Note (o : Note)
  | Conflict (o : Conflict)
  | Requires (o : Requires)
  | Patch (o : Patch)

/-- Embeds `ERule` from `rules.rs`. -/
inductive ERule where
  | EOrderRule (o : EOrderRule)
  | EWarningRule (o : EWarningRule)

/-- Embeds `EWarningRule::set_comment` (`rules.rs` lines 60-67): assigns (not
appends) the comment of whichever warning variant is present. -/
def EWarningRule.set_comment (w : EWarningRule) (comment : String) :
    EWarningRule :=
  match w with
  | .Note o => .Note { o with comment := comment }
  | .Conflict o => .Conflict { o with comment := comment }
  | .Requires o => .Requires { o with comment := comment }
  | .Patch o => .Patch { o with comment := comment }

/-- The `if let ERule::EWarningRule(w) = &mut rule` update of
`parse_chunk` (`parser.rs` lines 281-283): order rules are unaffected. -/
def ERule.set_warning_comment (rule : ERule) (comment : String) : ERule :=
  match rule with
  | .EWarningRule w => .EWarningRule (w.set_comment comment)
  | .EOrderRule o => .EOrderRule o

/-- Rust `str::lines` on a character list: split at `'\n'`, with no empty
trailing piece when the input ends in a newline. -/
def splitOnNl : List Char → List (List Char)
  | [] => [[]]
  | c :: rest =>
    if c = '\n' then [] :: splitOnNl rest
    else
      match splitOnNl rest with
      | [] => [[c]]
      | l :: ls => (c :: l) :: ls

/-- Rust `str::lines`. -/
def linesOfChars (l : List Char) : List (List Char) :=
  match l with
  | [] => []
  | _ =>
    let parts := splitOnNl l
    if parts.getLast? = some [] then parts.dropLast else parts

/-- The per-line comment stripping of `parse_chunk`'s body loop
(`parser.rs` lines 257-263): keep only the part before the first `;`. -/
def stripLineComment (l : List Char) : List Char :=
  if l.contains ';' then l.takeWhile (fun c => c ≠ ';') else l

/-- The body loop of `parse_chunk` (`parser.rs` lines 251-292) over the
`;`-stripped nonblank lines: while `is_first_line` holds, a line whose
first character is whitespace is accumulated into `comment` and consumed;
at the first other line a nonempty accumulated comment **replaces** the
rule's comment (via `set_comment`); every remaining line is appended to
the body followed by `'\n'`. -/
def bodyFold :
    List (List Char) → ERule → Bool → List Char → List Char →
      ERule × List Char
  | [], rule, _, _, body => (rule, body)
  | line :: rest, rule, is_first_line, comment, body =>
    if is_first_line then
      match line.head? with
      | some first_char =>
        if first_char.isWhitespace then
          bodyFold rest rule true (comment ++ line) body
        else
          let rule := if comment ≠ [] then
            rule.set_warning_comment (String.mk (trimChars comment))
          else rule
          bodyFold rest rule false [] (body ++ line ++ ['\n'])
      | none =>
        let rule := if comment ≠ [] then
          rule.set_warning_comment (String.mk (trimChars comment))
        else rule
        bodyFold rest rule false [] (body ++ line ++ ['\n'])
    else
      bodyFold rest rule is_first_line comment (body ++ line ++ ['\n'])

/-- The token validation shared by the `Order`/`NearStart`/`NearEnd` body
parsers (`rules.rs` lines 256-264): every token must end in `]` or in a
registered extension. -/
def collectNameTokens (p : Parser) :
    List (List Char) → Except PError (List String)
  | [] => .ok []
  | token :: rest =>
    if !(token.getLast? = some ']') && !(ends_with_vec p token) then
      .error (.err "Parsing error: tokenize failed")
    else
      match collectNameTokens p rest with
      | .error e => .error e
      | .ok names => .ok (String.mk token :: names)

/-- The line loop of the order-rule body parsers (`rules.rs`
lines 249-265): trim each line, tokenize it, validate the tokens. -/
def collectNames (p : Parser) :
    List (List Char) → Except PError (List String)
  | [] => .ok []
  | line :: rest =>
    match collectNameTokens p (tokenize p (trimChars line)) with
    | .error e => .error e
    | .ok names =>
      match collectNames p rest with
      | .error e => .error e
      | .ok names2 => .ok (names ++ names2)

/-- Embeds `Order::parse` (`rules.rs` lines 241-279): collect the names and
require at least two. -/
def Order.parse (p : Parser) (this : Order) (reader : List Char) :
    Except PError Order :=
  match collectNames p (linesOfChars reader) with
  | .error e => .error e
  | .ok names =>
    if names.length < 2 then
      .error (.err "Malformed Order rule: less than 2 expressions")
    else
      .ok { this with names := names }

/-- Embeds `NearStart::parse` (`rules.rs` lines 294-324): like `Order::parse`
without the arity requirement. -/
def NearStart.parse (p : Parser) (this : NearStart) (reader : List Char) :
    Except PError NearStart :=
  match collectNames p (linesOfChars reader) with
  | .error e => .error e
  | .ok names => .ok { this with names := names }

/-- Embeds `NearEnd::parse` (`rules.rs` lines 339-369). -/
def NearEnd.parse (p : Parser) (this : NearEnd) (reader : List Char) :
    Except PError NearEnd :=
  match collectNames p (linesOfChars reader) with
  | .error e => .error e
  | .ok names => .ok { this with names := names }

/-- Embeds `Note::parse` (`rules.rs` lines 411-434): optionally read a leading
whitespace comment (the body handed over by `parse_chunk` is trimmed, so
this is a no-op there), parse the expressions, require at least one. -/
def Note.parse (p : Parser) (this : Note) (reader : List Char) :
    Except PError Note :=
  let (copt, reader) := read_comment (reader.length + 1) reader
  let this := match copt with
    | some comment => { this with comment := String.mk comment }
    | none => this
  match parse_expressions p (4 * (reader.length + 1)) reader with
  | .error e => .error e
  | .ok expressions =>
    if expressions.isEmpty then
      .error (.err "Malformed Note rule: no expressions parsed")
    else
      .ok { this with expressions := expressions }

/-- Embeds `Conflict::parse` (`rules.rs` lines 473-496). -/
def Conflict.parse (p : Parser) (this : Conflict) (reader : List Char) :
    Except PError Conflict :=
  let (copt, reader) := read_comment (reader.length + 1) reader
  let this := match copt with
    | some comment => { this with comment := String.mk comment }
    | none => this
  match parse_expressions p (4 * (reader.length + 1)) reader with
  | .error e => .error e
  | .ok expressions =>
    if expressions.isEmpty then
      .error (.err "Malformed Conflict rule: no expressions parsed")
    else
      .ok { this with expressions := expressions }

/-- Embeds `Requires::parse` (`rules.rs` lines 536-561): exactly two expressions,
stored as `expression_a` and `expression_b`. -/
def Requires.parse (p : Parser) (this : Requires) (reader : List Char) :
    Except PError Requires :=
  let (copt, reader) := read_comment (reader.length + 1) reader
  let this := match copt with
    | some comment => { this with comment := String.mk comment }
    | none => this
  match parse_expressions p (4 * (reader.length + 1)) reader with
  | .error e => .error e
  | .ok expressions =>
    if expressions.length ≠ 2 then
      .error (.err "Malformed Requires rule: more than 2 expressions")
    else
      .ok { this with
        expression_a := expressions.get? 0,
        expression_b := expressions.get? 1 }

/-- Embeds `Patch::parse` (`rules.rs` lines 603-628). -/
def Patch.parse (p : Parser) (this : Patch) (reader : List Char) :
    Except PError Patch :=
  let (copt, reader) := read_comment (reader.length + 1) reader
  let this := match copt with
    | some comment => { this with comment := String.mk comment }
    | none => this
  match parse_expressions p (4 * (reader.length + 1)) reader with
  | .error e => .error e
  | .ok expressions =>
    if expressions.length ≠ 2 then
      .error (.err "Malformed Patch rule: not exactly 2 expressions")
    else
      .ok { this with
        expression_a := expressions.get? 0,
        expression_b := expressions.get? 1 }

/-- Embeds `TParser` dispatch for `ERule` (`rules.rs` lines 87-127). -/
def ERule.parse (p : Parser) (rule : ERule) (reader : List Char) :
    Except PError ERule :=
  match rule with
  | .EOrderRule (.Order o) =>
    match Order.parse p o reader with
    | .error e => .error e
    | .ok o => .ok (.EOrderRule (.Order o))
  | .EOrderRule (.NearStart o) =>
    match NearStart.parse p o reader with
    | .error e => .error e
    | .ok o => .ok (.EOrderRule (.NearStart o))
  | .EOrderRule (.NearEnd o) =>
    match NearEnd.parse p o reader with
    | .error e => .error e
    | .ok o => .ok (.EOrderRule (.NearEnd o))
  | .EWarningRule (.Note o) =>
    match Note.parse p o reader with
    | .error e => .error e
    | .ok o => .ok (.EWarningRule (.Note o))
  | .EWarningRule (.Conflict o) =>
    match Conflict.parse p o reader with
    | .error e => .error e
    | .ok o => .ok (.EWarningRule (.Conflict o))
  | .EWarningRule (.Requires o) =>
    match Requires.parse p o reader with
    | .error e => .error e
    | .ok o => .ok (.EWarningRule (.Requires o))
  | .EWarningRule (.Patch o) =>
    match Patch.parse p o reader with
    | .error e => .error e
    | .ok o => .ok (.EWarningRule (.Patch o))

/-- The rule-kind dispatch of `parse_chunk` (`parser.rs` lines 215-246):
match the popped rule expression against the known keywords; warning rules
carry the trimmed remainder as their inline comment, order rules carry no
comment. -/
def ruleFromHead (rule_expression : List Char) : Except PError ERule :=
  if ("order".data).isPrefixOf rule_expression then
    .ok (.EOrderRule (.Order { names := [] }))
  else if ("nearstart".data).isPrefixOf rule_expression then
    .ok (.EOrderRule (.NearStart { names := [] }))
  else if ("nearend".data).isPrefixOf rule_expression then
    .ok (.EOrderRule (.NearEnd { names := [] }))
  else if ("note".data).isPrefixOf rule_expression then
    .ok (.EWarningRule (.Note
      { comment := String.mk (trimChars (rule_expression.drop 4)),
        expressions := [] }))
  else if ("conflict".data).isPrefixOf rule_expression then
    .ok (.EWarningRule (.Conflict
      { comment := String.mk (trimChars (rule_expression.drop 8)),
        expressions := [] }))
  else if ("requires".data).isPrefixOf rule_expression then
    .ok (.EWarningRule (.Requires
      { comment := String.mk (trimChars (rule_expression.drop 8)),
        expression_a := none, expression_b := none }))
  else if ("patch".data).isPrefixOf rule_expression then
    .ok (.EWarningRule (.Patch
      { comment := String.mk (trimChars (rule_expression.drop 5)),
        expression_a := none, expression_b := none }))
  else
    .error (.err "Parsing error: unknown rule")

/-- Embeds `Parser::parse_chunk` (`parser.rs` lines 202-312): the chunk must
start with `[`; the rule expression is read through its matching `]` and
popped; the kind is dispatched; the remaining lines are `;`-stripped,
blank-filtered and folded by `bodyFold` (leading whitespace lines replace
the inline comment); the trimmed body is handed to the rule's own
parser. -/
def parse_chunk (p : Parser) (data : List Char) : Except PError ERule :=
  match data with
  | [] => .error (.err "Parsing error: empty chunk")
  | start :: rest =>
    if start = '[' then
      match parse_rule_expression rest with
      | none => .error (.err "Parsing error: unknown rule")
      | some (rule_expression, rest') =>
        match ruleFromHead rule_expression.dropLast with
        | .error e => .error e
        | .ok rule =>
          let lines := ((linesOfChars rest').map stripLineComment).filter
            (fun l => decide (trimChars l ≠ []))
          let (rule, body) := bodyFold lines rule true [] []
          ERule.parse p rule (trimChars body)
    else
      .error (.err "Parsing error: Not a rule start")

/-- The chunking loop of `parse_rules_from_reader` (`parser.rs`
lines 137-170): skip lines whose first non-whitespace character is `;`,
lowercase everything else, gather maximal runs of nonblank lines into
chunks with their newline delimiters restored. -/
def readerChunks : List String → Option (List Char) → List (List Char) →
    List (List Char)
  | [], chunk, chunks =>
    match chunk with
    | some c => chunks ++ [c]
    | none => chunks
  | line :: rest, chunk, chunks =>
    let l := line.data
    if (trimStartChars l).head? = some ';' then
      readerChunks rest chunk chunks
    else
      let l := l.map Char.toLower
      match chunk with
      | some c =>
        if trimChars l = [] then
          readerChunks rest none (chunks ++ [c])
        else
          readerChunks rest (some (c ++ l ++ ['\n'])) chunks
      | none =>
        if trimChars l = [] then
          readerChunks rest none chunks
        else
          readerChunks rest (some (l ++ ['\n'])) chunks

/-- The chunk-processing loop of `parse_rules_from_reader`
(`parser.rs` lines 172-192): a chunk whose parse returns `Err` is logged
and skipped; a chunk whose parse panics aborts the whole call (modelled as
the `Except.error` of the result). -/
def processChunks (p : Parser) :
    List (List Char) → List ERule → Except String (List ERule)
  | [], rules => .ok rules
  | c :: cs, rules =>
    match parse_chunk p c with
    | .ok it => processChunks p cs (rules ++ [it])
    | .error (.err _) => processChunks p cs rules
    | .error (.fatal msg) => .error msg

/-- Embeds `Parser::parse_rules_from_reader` (`parser.rs` lines 133-195), the
input given as its list of lines.  The only non-`Ok` outcome is a Rust
panic escaping a chunk parse; every `Err` is caught per chunk. -/
def parse_rules_from_reader (p : Parser) (input : List String) :
    Except String (List ERule) :=
  processChunks p (readerChunks input none []) []


/-- Claim C5: For every `Patch` rule with present expressions `a` and `b` (any
comments) and every mod list, `Patch(a,b).eval` equals the disjunction
`Requires(a,b).eval || Requires(b,a).eval`, and equivalently equals the
exclusive or of the evaluations of `a` and `b`. -/
theorem c5_patch_requires_xor (dm : Expression → String → Bool)
    (c c1 c2 : String) (a b : Expression) (items : List String) :
    Patch.eval dm ⟨c, some a, some b⟩ items
        = (Requires.eval dm ⟨c1, some a, some b⟩ items
            || Requires.eval dm ⟨c2, some b, some a⟩ items)
      ∧ Patch.eval dm ⟨c, some a, some b⟩ items
        = xor (Expression.eval dm a items) (Expression.eval dm b items) := by
  constructor
  · rfl
  · simp only [Patch.eval]
    cases Expression.eval dm a items <;> cases Expression.eval dm b items <;> rfl

/-- Claim C10: A `Requires` or `Patch` rule in which `expression_a` or
`expression_b` is absent (`None`, as in a default-constructed rule) evaluates
to `false` on every mod list: `eval` is total and never fails on missing
operands. -/
theorem c10_requires_patch_none_false (dm : Expression → String → Bool)
    (c : String) (o : Option Expression) (items : List String) :
    Requires.eval dm ⟨c, none, o⟩ items = false
      ∧ Requires.eval dm ⟨c, o, none⟩ items = false
      ∧ Patch.eval dm ⟨c, none, o⟩ items = false
      ∧ Patch.eval dm ⟨c, o, none⟩ items = false := by
  refine ⟨rfl, ?_, rfl, ?_⟩ <;> cases o <;> rfl

theorem mem_stepSet {edges : List (Nat × Nat)} {s : Finset Nat} {w : Nat} :
    w ∈ stepSet edges s ↔ ∃ u ∈ s, (u, w) ∈ edges := by
  simp only [stepSet, List.mem_toFinset, List.mem_map, List.mem_filter,
    decide_eq_true_eq]
  constructor
  · rintro ⟨⟨a, b⟩, ⟨hpE, hp1⟩, hp2⟩
    cases hp2
    exact ⟨a, hp1, hpE⟩
  · rintro ⟨u, hu, hE⟩
    exact ⟨(u, w), ⟨hE, hu⟩, rfl⟩

theorem stepSet_subset_snd (edges : List (Nat × Nat)) (s : Finset Nat) :
    stepSet edges s ⊆ (edges.map Prod.snd).toFinset := by
  intro w hw
  rcases mem_stepSet.1 hw with ⟨u, _, hE⟩
  exact List.mem_toFinset.2 (List.mem_map.2 ⟨(u, w), hE, rfl⟩)

theorem subset_satStep (edges : List (Nat × Nat)) (s : Finset Nat) :
    s ⊆ satStep edges s :=
  Finset.subset_union_left

theorem iterate_satStep_le {edges : List (Nat × Nat)} {s : Finset Nat}
    {k m : Nat} (h : k ≤ m) :
    (satStep edges)^[k] s ⊆ (satStep edges)^[m] s := by
  induction m with
  | zero =>
    rw [Nat.le_zero.1 h]
  | succ m ih =>
    rcases Nat.lt_or_ge k (m + 1) with hk | hk
    · rw [Function.iterate_succ_apply']
      exact (ih (Nat.lt_succ_iff.1 hk)).trans (subset_satStep _ _)
    · have : k = m + 1 := Nat.le_antisymm h hk
      subst this
      exact Finset.Subset.refl _

theorem iterate_satStep_subset_snd {edges : List (Nat × Nat)} {s : Finset Nat}
    (hs : s ⊆ (edges.map Prod.snd).toFinset) (k : Nat) :
    (satStep edges)^[k] s ⊆ (edges.map Prod.snd).toFinset := by
  induction k with
  | zero => simpa using hs
  | succ k ih =>
    rw [Function.iterate_succ_apply']
    exact Finset.union_subset ih (stepSet_subset_snd _ _)

theorem exists_satStep_fix (edges : List (Nat × Nat)) (s : Finset Nat)
    (hs : s ⊆ (edges.map Prod.snd).toFinset) :
    ∃ k ≤ edges.length,
      (satStep edges)^[k + 1] s = (satStep edges)^[k] s := by
  by_contra hcon
  push_neg at hcon
  have grow : ∀ k, k ≤ edges.length + 1 → k ≤ ((satStep edges)^[k] s).card := by
    intro k
    induction k with
    | zero => intro _; exact Nat.zero_le _
    | succ k ih =>
      intro hk
      have hklt : k ≤ edges.length := Nat.lt_succ_iff.1 hk
      have hne := hcon k hklt
      have hsub : (satStep edges)^[k] s ⊆ (satStep edges)^[k + 1] s :=
        iterate_satStep_le (Nat.le_succ k)
      have hss : (satStep edges)^[k] s ⊂ (satStep edges)^[k + 1] s :=
        Finset.ssubset_iff_subset_ne.2 ⟨hsub, fun h => hne h.symm⟩
      have := Finset.card_lt_card hss
      have hk' := ih (Nat.le_succ_of_le hklt)
      omega
  have h1 : edges.length + 1 ≤ ((satStep edges)^[edges.length + 1] s).card :=
    grow _ le_rfl
  have h2 : ((satStep edges)^[edges.length + 1] s).card ≤ edges.length := by
    calc ((satStep edges)^[edges.length + 1] s).card
        ≤ ((edges.map Prod.snd).toFinset).card :=
          Finset.card_le_card (iterate_satStep_subset_snd hs _)
      _ ≤ (edges.map Prod.snd).length := List.toFinset_card_le _
      _ = edges.length := List.length_map _ _
  omega

theorem satStep_satReach (edges : List (Nat × Nat)) (v : Nat) :
    satStep edges (satReach edges v) = satReach edges v := by
  obtain ⟨k, hk, hfix⟩ :=
    exists_satStep_fix edges (stepSet edges {v}) (stepSet_subset_snd _ _)
  have hconst : ∀ m, k ≤ m →
      (satStep edges)^[m] (stepSet edges {v})
        = (satStep edges)^[k] (stepSet edges {v}) := by
    intro m hm
    induction m, hm using Nat.le_induction with
    | base => rfl
    | succ m hm ih =>
      rw [Function.iterate_succ_apply', ih]
      exact ((Function.iterate_succ_apply' (satStep edges) k _).symm).trans hfix
  have h1 : satReach edges v = (satStep edges)^[k] (stepSet edges {v}) :=
    hconst _ (Nat.le_succ_of_le hk)
  calc satStep edges (satReach edges v)
      = (satStep edges)^[edges.length + 2] (stepSet edges {v}) :=
        (Function.iterate_succ_apply' (satStep edges) (edges.length + 1) _).symm
    _ = (satStep edges)^[k] (stepSet edges {v}) :=
        hconst _ (by omega)
    _ = satReach edges v := h1.symm

theorem stepSet_singleton_subset_satReach (edges : List (Nat × Nat)) (v : Nat) :
    stepSet edges {v} ⊆ satReach edges v := by
  have := @iterate_satStep_le edges (stepSet edges {v}) 0 (edges.length + 1)
    (Nat.zero_le (edges.length + 1))
  simpa using this

theorem mem_satReach_iff {edges : List (Nat × Nat)} {v w : Nat} :
    w ∈ satReach edges v ↔ Relation.TransGen (edgeRel edges) v w := by
  constructor
  · have main : ∀ (k : Nat) (s : Finset Nat),
        (∀ x ∈ s, Relation.TransGen (edgeRel edges) v x) →
        ∀ w ∈ (satStep edges)^[k] s, Relation.TransGen (edgeRel edges) v w := by
      intro k
      induction k with
      | zero => intro s hs w hw; exact hs w (by simpa using hw)
      | succ k ih =>
        intro s hs w hw
        rw [Function.iterate_succ_apply] at hw
        refine ih (satStep edges s) ?_ w hw
        intro x hx
        rcases Finset.mem_union.1 hx with hx | hx
        · exact hs x hx
        · rcases mem_stepSet.1 hx with ⟨u, hu, hE⟩
          exact (hs u hu).tail hE
    intro hw
    refine main _ (stepSet edges {v}) ?_ w hw
    intro x hx
    rcases mem_stepSet.1 hx with ⟨u, hu, hE⟩
    rw [Finset.mem_singleton] at hu
    subst hu
    exact Relation.TransGen.single hE
  · intro h
    induction h with
    | single hE =>
      exact stepSet_singleton_subset_satReach edges v
        (mem_stepSet.2 ⟨v, Finset.mem_singleton_self v, hE⟩)
    | tail _ hE ih =>
      rename_i b c _
      have : c ∈ stepSet edges (satReach edges v) :=
        mem_stepSet.2 ⟨b, ih, hE⟩
      have : c ∈ satStep edges (satReach edges v) :=
        Finset.mem_union.2 (Or.inr this)
      rwa [satStep_satReach] at this

theorem hasCycleB_iff {n : Nat} {edges : List (Nat × Nat)} :
    hasCycleB n edges = true
      ↔ ∃ v < n, Relation.TransGen (edgeRel edges) v v := by
  simp only [hasCycleB, List.any_eq_true, List.mem_range, decide_eq_true_eq,
    mem_satReach_iff]

theorem hVal_lt (edges : List (Nat × Nat)) (v : Nat) :
    hVal edges v < edges.length + 1 := by
  have h1 : satReach edges v ⊆ (edges.map Prod.snd).toFinset :=
    iterate_satStep_subset_snd (stepSet_subset_snd _ _) _
  have h2 := Finset.card_le_card h1
  have h3 := List.toFinset_card_le (edges.map Prod.snd)
  have h4 : (edges.map Prod.snd).length = edges.length := List.length_map _ _
  unfold hVal
  omega

theorem hVal_edge_lt {edges : List (Nat × Nat)} {u w : Nat}
    (hE : (u, w) ∈ edges) (hw : w ∉ satReach edges w) :
    hVal edges w < hVal edges u := by
  have h1 : w ∈ satReach edges u :=
    stepSet_singleton_subset_satReach edges u
      (mem_stepSet.2 ⟨u, Finset.mem_singleton_self u, hE⟩)
  have h2 : satReach edges w ⊆ satReach edges u := by
    intro z hz
    exact mem_satReach_iff.2
      (Relation.TransGen.head hE (mem_satReach_iff.1 hz))
  have h3 : insert w (satReach edges w) ⊆ satReach edges u :=
    Finset.insert_subset h1 h2
  have h4 := Finset.card_le_card h3
  rw [Finset.card_insert_of_not_mem hw] at h4
  unfold hVal
  omega

theorem foldl_base_shift (M : Nat) :
    ∀ (l : List Nat) (c : Nat),
      l.foldl (fun acc v => acc * M + v) c = c * M ^ l.length + lexFold M l := by
  intro l
  induction l with
  | nil => intro c; simp [lexFold]
  | cons v l ih =>
    intro c
    have h0 : lexFold M (v :: l) = v * M ^ l.length + lexFold M l := by
      have := ih v
      simpa [lexFold] using this
    calc (v :: l).foldl (fun acc v => acc * M + v) c
        = l.foldl (fun acc v => acc * M + v) (c * M + v) := rfl
      _ = (c * M + v) * M ^ l.length + lexFold M l := ih _
      _ = c * M ^ (l.length + 1) + (v * M ^ l.length + lexFold M l) := by ring
      _ = c * M ^ ((v :: l).length) + lexFold M (v :: l) := by
          rw [h0, List.length_cons]

theorem lexFold_lt_pow {M : Nat} :
    ∀ {l : List Nat}, (∀ v ∈ l, v < M) → lexFold M l < M ^ l.length := by
  intro l
  induction l with
  | nil => intro _; simp [lexFold]
  | cons v l ih =>
    intro h
    have hv : v < M := h v (List.mem_cons_self _ _)
    have hl : lexFold M l < M ^ l.length :=
      ih (fun x hx => h x (List.mem_cons_of_mem _ hx))
    have h0 : lexFold M (v :: l) = v * M ^ l.length + lexFold M l := by
      have := foldl_base_shift M l v
      simpa [lexFold] using this
    rw [h0, List.length_cons, pow_succ]
    calc v * M ^ l.length + lexFold M l
        < v * M ^ l.length + M ^ l.length := by omega
      _ = (v + 1) * M ^ l.length := by ring
      _ ≤ M * M ^ l.length := by
          exact Nat.mul_le_mul_right _ hv
      _ = M ^ l.length * M := by ring

theorem lexFold_append_lt {M : Nat} (p s t : List Nat) (a b : Nat)
    (hab : a < b) (hs : ∀ v ∈ s, v < M) (hlen : s.length = t.length) :
    lexFold M (p ++ a :: s) < lexFold M (p ++ b :: t) := by
  set A : Nat := p.foldl (fun acc v => acc * M + v) 0 with hA
  have expand : ∀ (c : Nat) (w : List Nat),
      lexFold M (p ++ c :: w)
        = (A * M + c) * M ^ w.length + lexFold M w := by
    intro c w
    calc lexFold M (p ++ c :: w)
        = (c :: w).foldl (fun acc v => acc * M + v) A := by
          rw [lexFold, List.foldl_append]
      _ = w.foldl (fun acc v => acc * M + v) (A * M + c) := rfl
      _ = (A * M + c) * M ^ w.length + lexFold M w := foldl_base_shift M w _
  rw [expand a s, expand b t, ← hlen]
  have h1 : lexFold M s < M ^ s.length := lexFold_lt_pow hs
  have h2 : (A * M + a + 1) * M ^ s.length ≤ (A * M + b) * M ^ s.length :=
    Nat.mul_le_mul_right _ (by omega)
  calc (A * M + a) * M ^ s.length + lexFold M s
      < (A * M + a) * M ^ s.length + M ^ s.length := by omega
    _ = (A * M + a + 1) * M ^ s.length := by ring
    _ ≤ (A * M + b) * M ^ s.length := h2
    _ ≤ (A * M + b) * M ^ s.length + lexFold M t := Nat.le_add_right _ _

/-! ### Properties of the scan and of the move -/
theorem findViol_eq_some {edges : List (Nat × Nat)} {index_dict : String → Nat}
    {result : List String} {n i j : Nat}
    (h : findViol edges index_dict result n = some (i, j)) :
    i < n ∧ j < i ∧
      (index_dict (result.getD i ""), index_dict (result.getD j "")) ∈ edges := by
  obtain ⟨a, ha, hfa⟩ := List.exists_of_findSome?_eq_some h
  rcases Option.map_eq_some'.1 hfa with ⟨j', hj', hpair⟩
  rw [Prod.mk.injEq] at hpair
  obtain ⟨rfl, rfl⟩ := hpair
  have h1 := List.mem_of_find?_eq_some hj'
  have h2 := List.find?_some hj'
  rw [decide_eq_true_eq] at h2
  exact ⟨List.mem_range.1 ha, List.mem_range.1 h1, h2⟩

theorem findViol_eq_none_iff {edges : List (Nat × Nat)}
    {index_dict : String → Nat} {result : List String} {n : Nat} :
    findViol edges index_dict result n = none
      ↔ ∀ i < n, ∀ j < i,
          (index_dict (result.getD i ""), index_dict (result.getD j ""))
            ∉ edges := by
  rw [findViol, List.findSome?_eq_none_iff]
  constructor
  · intro h i hi j hj hmem
    have := h i (List.mem_range.2 hi)
    rw [Option.map_eq_none'] at this
    rw [List.find?_eq_none] at this
    exact this j (List.mem_range.2 hj) (decide_eq_true hmem)
  · intro h i hi
    rw [Option.map_eq_none', List.find?_eq_none]
    intro j hj hdec
    exact h i (List.mem_range.1 hi) j (List.mem_range.1 hj)
      (of_decide_eq_true hdec)

theorem insertIdx_eq_take_cons_drop {α : Type} (x : α) :
    ∀ (j : Nat) (l : List α), j ≤ l.length →
      l.insertIdx j x = l.take j ++ x :: l.drop j := by
  intro j
  induction j with
  | zero => intro l _; simp
  | succ j ih =>
    intro l hl
    cases l with
    | nil => simp at hl
    | cons hd tl =>
      rw [List.insertIdx_succ_cons, ih tl (by simpa using hl)]
      simp

theorem applyMove_length {i j : Nat} {r : List String}
    (hi : i < r.length) (hj : j < i) :
    (applyMove i j r).length = r.length := by
  have he : (r.eraseIdx i).length = r.length - 1 := by
    rw [List.length_eraseIdx, if_pos hi]
  rw [applyMove, List.length_insertIdx _ _ (by omega), he]
  omega

theorem applyMove_perm {i j : Nat} {r : List String}
    (hi : i < r.length) (hj : j < i) :
    (applyMove i j r).Perm r := by
  have he : (r.eraseIdx i).length = r.length - 1 := by
    rw [List.length_eraseIdx, if_pos hi]
  have h1 : (applyMove i j r).Perm (r.getD i "" :: r.eraseIdx i) :=
    List.perm_insertIdx _ _ (by omega)
  have hx : r.getD i "" = r[i] := List.getD_eq_getElem r "" hi
  have h2 : (r.getD i "" :: r.eraseIdx i).Perm r := by
    rw [hx, List.eraseIdx_eq_take_drop_succ]
    have h3 : (r.take i ++ r[i] :: r.drop (i + 1)).Perm
        (r[i] :: (r.take i ++ r.drop (i + 1))) := List.perm_middle
    have h4 : r.take i ++ r[i] :: r.drop (i + 1) = r := by
      rw [← List.drop_eq_getElem_cons hi, List.take_append_drop]
    conv_rhs => rw [← h4]
    exact h3.symm
  exact h1.trans h2

theorem applyMove_eq {i j : Nat} {r : List String}
    (hi : i < r.length) (hj : j < i) :
    applyMove i j r = r.take j ++ r.getD i "" :: (r.eraseIdx i).drop j := by
  have he : (r.eraseIdx i).length = r.length - 1 := by
    rw [List.length_eraseIdx, if_pos hi]
  have h1 : (r.eraseIdx i).take j = r.take j := by
    rw [List.eraseIdx_eq_take_drop_succ,
      List.take_append_of_le_length (by simp; omega), List.take_take,
      min_eq_left (by omega)]
  rw [applyMove, insertIdx_eq_take_cons_drop _ _ _ (by omega), h1]

theorem phi_lt (edges : List (Nat × Nat)) (index_dict : String → Nat)
    (r : List String) :
    phi edges index_dict r < (edges.length + 1) ^ r.length := by
  have h := @lexFold_lt_pow (edges.length + 1)
    (r.map (fun s => hVal edges (index_dict s))) ?_
  · rwa [List.length_map] at h
  · intro v hv
    rcases List.mem_map.1 hv with ⟨s, _, rfl⟩
    exact hVal_lt _ _

theorem phi_applyMove_gt {edges : List (Nat × Nat)}
    {index_dict : String → Nat} {r : List String} {i j : Nat}
    (hi : i < r.length) (hj : j < i)
    (hE : (index_dict (r.getD i ""), index_dict (r.getD j "")) ∈ edges)
    (hnc : index_dict (r.getD j "") ∉ satReach edges (index_dict (r.getD j ""))) :
    phi edges index_dict r < phi edges index_dict (applyMove i j r) := by
  have hjr : j < r.length := lt_trans hj hi
  have he : (r.eraseIdx i).length = r.length - 1 := by
    rw [List.length_eraseIdx, if_pos hi]
  have hsplit : r = r.take j ++ r.getD j "" :: r.drop (j + 1) := by
    rw [List.getD_eq_getElem r "" hjr, ← List.drop_eq_getElem_cons hjr,
      List.take_append_drop]
  have hmove := applyMove_eq hi hj
  have hab : hVal edges (index_dict (r.getD j ""))
      < hVal edges (index_dict (r.getD i "")) :=
    hVal_edge_lt hE hnc
  calc phi edges index_dict r
      = lexFold (edges.length + 1)
          ((r.take j).map (fun s => hVal edges (index_dict s))
            ++ hVal edges (index_dict (r.getD j ""))
              :: (r.drop (j + 1)).map (fun s => hVal edges (index_dict s))) := by
        rw [phi]
        conv_lhs => rw [hsplit]
        rw [List.map_append, List.map_cons]
    _ < lexFold (edges.length + 1)
          ((r.take j).map (fun s => hVal edges (index_dict s))
            ++ hVal edges (index_dict (r.getD i ""))
              :: ((r.eraseIdx i).drop j).map
                  (fun s => hVal edges (index_dict s))) := by
        apply lexFold_append_lt _ _ _ _ _ hab
        · intro v hv
          rcases List.mem_map.1 hv with ⟨s, _, rfl⟩
          exact hVal_lt _ _
        · rw [List.length_map, List.length_map, List.length_drop,
            List.length_drop, he]
          omega
    _ = phi edges index_dict (applyMove i j r) := by
        rw [phi, hmove, List.map_append, List.map_cons]

/-! ### The loop reaches a fixed point -/
theorem sortPasses_findViol_none {n : Nat} {edges : List (Nat × Nat)}
    {index_dict : String → Nat}
    (hnc : ∀ u w, (u, w) ∈ edges → w ∉ satReach edges w) :
    ∀ (fuel : Nat) (r : List String), r.length = n →
      (edges.length + 1) ^ n - phi edges index_dict r ≤ fuel →
      findViol edges index_dict (sortPasses n edges index_dict fuel r) n
        = none := by
  intro fuel
  induction fuel with
  | zero =>
    intro r hlen hfuel
    exfalso
    have h := phi_lt edges index_dict r
    rw [hlen] at h
    omega
  | succ fuel ih =>
    intro r hlen hfuel
    rcases hfv : findViol edges index_dict r n with _ | ⟨i, j⟩
    · have hred : sortPasses n edges index_dict (fuel + 1) r = r := by
        simp [sortPasses, stable_topo_sort_inner, hfv]
      rw [hred]
      exact hfv
    · obtain ⟨hin, hji, hE⟩ := findViol_eq_some hfv
      have hi : i < r.length := by rw [hlen]; exact hin
      have hw : index_dict (r.getD j "")
          ∉ satReach edges (index_dict (r.getD j "")) := hnc _ _ hE
      have hphi := phi_applyMove_gt hi hji hE hw
      have hlen' : (applyMove i j r).length = n := by
        rw [applyMove_length hi hji, hlen]
      have hfuel' :
          (edges.length + 1) ^ n - phi edges index_dict (applyMove i j r)
            ≤ fuel := by
        omega
      have hred : sortPasses n edges index_dict (fuel + 1) r
          = sortPasses n edges index_dict fuel (applyMove i j r) := by
        simp [sortPasses, stable_topo_sort_inner, hfv]
      rw [hred]
      exact ih (applyMove i j r) hlen' hfuel'

theorem sortPasses_perm (n : Nat) (edges : List (Nat × Nat))
    (index_dict : String → Nat) :
    ∀ (fuel : Nat) (r : List String), r.length = n →
      (sortPasses n edges index_dict fuel r).Perm r := by
  intro fuel
  induction fuel with
  | zero => intro r _; exact List.Perm.refl _
  | succ fuel ih =>
    intro r hlen
    rcases hfv : findViol edges index_dict r n with _ | ⟨i, j⟩
    · have hred : sortPasses n edges index_dict (fuel + 1) r = r := by
        simp [sortPasses, stable_topo_sort_inner, hfv]
      rw [hred]
    · obtain ⟨hin, hji, _⟩ := findViol_eq_some hfv
      have hi : i < r.length := hlen ▸ hin
      have hred : sortPasses n edges index_dict (fuel + 1) r
          = sortPasses n edges index_dict fuel (applyMove i j r) := by
        simp [sortPasses, stable_topo_sort_inner, hfv]
      rw [hred]
      have hlen' : (applyMove i j r).length = n := by
        rw [applyMove_length hi hji, hlen]
      exact (ih (applyMove i j r) hlen').trans (applyMove_perm hi hji)

theorem sortPasses_iterate (n : Nat) (edges : List (Nat × Nat))
    (index_dict : String → Nat) :
    ∀ (fuel : Nat) (r : List String), ∃ k : Nat,
      sortPasses n edges index_dict fuel r
        = (fun x => (stable_topo_sort_inner n edges index_dict x).2)^[k] r := by
  intro fuel
  induction fuel with
  | zero => intro r; exact ⟨0, rfl⟩
  | succ fuel ih =>
    intro r
    rcases hfv : findViol edges index_dict r n with _ | ⟨i, j⟩
    · refine ⟨0, ?_⟩
      simp [sortPasses, stable_topo_sort_inner, hfv]
    · obtain ⟨k, hk⟩ := ih (applyMove i j r)
      refine ⟨k + 1, ?_⟩
      have hred : sortPasses n edges index_dict (fuel + 1) r
          = sortPasses n edges index_dict fuel (applyMove i j r) := by
        simp [sortPasses, stable_topo_sort_inner, hfv]
      rw [hred, hk, Function.iterate_succ_apply]
      congr 1
      simp [stable_topo_sort_inner, hfv]

/-! ### Facts about the present-edge construction -/
theorem presentPairs_mem {mods : List String}
    {order : List (String × String)} {a b : String}
    (h : (a, b) ∈ presentPairs mods order) :
    (a, b) ∈ order ∧ a ∈ mods ∧ b ∈ mods := by
  have h1 := List.mem_filter.1 h
  refine ⟨h1.1, ?_, ?_⟩
  · have := h1.2
    simp only [Bool.and_eq_true, decide_eq_true_eq] at this
    exact this.1
  · have := h1.2
    simp only [Bool.and_eq_true, decide_eq_true_eq] at this
    exact this.2

theorem mem_presentPairs {mods : List String}
    {order : List (String × String)} {a b : String}
    (hab : (a, b) ∈ order) (ha : a ∈ mods) (hb : b ∈ mods) :
    (a, b) ∈ presentPairs mods order :=
  List.mem_filter.2 ⟨hab, by simp [ha, hb]⟩

theorem presentEdges_to_pair {mods : List String}
    {order : List (String × String)} {x y : Nat}
    (h : (x, y) ∈ presentEdges mods order) :
    ∃ a b, (a, b) ∈ presentPairs mods order ∧ a ∈ mods ∧ b ∈ mods
      ∧ x = mods.indexOf a ∧ y = mods.indexOf b := by
  rcases List.mem_map.1 h with ⟨⟨a, b⟩, hq, hxy⟩
  rw [Prod.mk.injEq] at hxy
  obtain ⟨hpair, ha, hb⟩ := presentPairs_mem hq
  exact ⟨a, b, hq, ha, hb, hxy.1.symm, hxy.2.symm⟩

theorem mem_presentEdges {mods : List String}
    {order : List (String × String)} {a b : String}
    (h : (a, b) ∈ presentPairs mods order) :
    (mods.indexOf a, mods.indexOf b) ∈ presentEdges mods order :=
  List.mem_map.2 ⟨(a, b), h, rfl⟩

theorem presentEdges_lt {mods : List String}
    {order : List (String × String)} {p : Nat × Nat}
    (hp : p ∈ presentEdges mods order) :
    p.1 < mods.length ∧ p.2 < mods.length := by
  rcases p with ⟨x, y⟩
  obtain ⟨a, b, _, ha, hb, rfl, rfl⟩ := presentEdges_to_pair hp
  exact ⟨List.indexOf_lt_length.2 ha, List.indexOf_lt_length.2 hb⟩

theorem no_self_reach_of_hasCycleB_false {n : Nat} {edges : List (Nat × Nat)}
    (h : hasCycleB n edges = false)
    (hbound : ∀ p ∈ edges, p.1 < n ∧ p.2 < n) :
    ∀ u w, (u, w) ∈ edges → w ∉ satReach edges w := by
  intro u w hp hmem
  rw [hasCycleB, List.any_eq_false] at h
  exact h w (List.mem_range.2 (hbound (u, w) hp).2) (decide_eq_true hmem)

theorem topo_sort_ok_elim {mods : List String}
    {order : List (String × String)} {res : List String}
    (h : topo_sort mods order = .ok res) :
    hasCycleB mods.length (presentEdges mods order) = false
      ∧ res = sortPasses mods.length (presentEdges mods order)
          (fun m => mods.indexOf m) (sortFuel mods order) mods := by
  by_cases hc : hasCycleB mods.length (presentEdges mods order) = true
  · rw [topo_sort, if_pos hc] at h
    cases h
  · have hc' : hasCycleB mods.length (presentEdges mods order) = false := by
      revert hc
      cases hasCycleB mods.length (presentEdges mods order) <;> simp
    rw [topo_sort, if_neg hc] at h
    injection h with h
    exact ⟨hc', h.symm⟩

theorem topo_sort_error_iff {mods : List String}
    {order : List (String × String)} :
    (∃ err, topo_sort mods order = .error err)
      ↔ hasCycleB mods.length (presentEdges mods order) = true := by
  cases hc : hasCycleB mods.length (presentEdges mods order)
  · simp [topo_sort, hc]
  · simp [topo_sort, hc]

theorem topo_sort_ok_perm {mods : List String}
    {order : List (String × String)} {res : List String}
    (h : topo_sort mods order = .ok res) : res.Perm mods := by
  obtain ⟨_, hres⟩ := topo_sort_ok_elim h
  rw [hres]
  exact sortPasses_perm _ _ _ _ _ rfl

theorem topo_sort_ok_findViol_none {mods : List String}
    {order : List (String × String)} {res : List String}
    (h : topo_sort mods order = .ok res) :
    findViol (presentEdges mods order) (fun m => mods.indexOf m) res
      mods.length = none := by
  obtain ⟨hc, hres⟩ := topo_sort_ok_elim h
  have hnc := no_self_reach_of_hasCycleB_false hc
    (fun p hp => presentEdges_lt hp)
  rw [hres]
  exact sortPasses_findViol_none hnc _ mods rfl (Nat.sub_le _ _)

theorem nodup_indexOf_getElem {l : List String} (hnd : l.Nodup)
    {i : Nat} (hi : i < l.length) : l.indexOf l[i] = i := by
  have hmem : l[i] ∈ l := List.getElem_mem hi
  have h1 : l.indexOf l[i] < l.length := List.indexOf_lt_length.2 hmem
  have h2 : l[l.indexOf l[i]] = l[i] := List.getElem_indexOf h1
  exact (List.Nodup.getElem_inj_iff hnd).1 h2

/-! ### The sorter claims -/

/-- Claim C1: For every duplicate-free mod list and every edge list, when
`topo_sort` returns success its result is a permutation of the input mod
list: the same multiset of identifiers, no insertions, no deletions. -/
theorem c1_topo_sort_permutation (mods : List String)
    (order : List (String × String)) (hnd : mods.Nodup)
    (res : List String) (hok : topo_sort mods order = .ok res) :
    res.Perm mods :=
  topo_sort_ok_perm hok

/-- Witness for C1 at a concrete input. -/
theorem c1_topo_sort_permutation_witness :
    List.Perm ["a.archive", "b.archive"] ["b.archive", "a.archive"] :=
  c1_topo_sort_permutation ["b.archive", "a.archive"]
    [("a.archive", "b.archive")] (by decide)
    ["a.archive", "b.archive"] (by rfl)

/-- Claim C2: For every duplicate-free mod list and every edge list on which
`topo_sort` returns success, and for every edge `(a, b)` whose endpoints
both occur in the mod list, `a` appears strictly before `b` in the returned
list. -/
theorem c2_topo_sort_respects_edges (mods : List String)
    (order : List (String × String)) (hnd : mods.Nodup)
    (res : List String) (hok : topo_sort mods order = .ok res)
    (a b : String) (hab : (a, b) ∈ order) (ha : a ∈ mods) (hb : b ∈ mods) :
    res.indexOf a < res.indexOf b := by
  obtain ⟨hc, _⟩ := topo_sort_ok_elim hok
  have hperm := topo_sort_ok_perm hok
  have hpoint := findViol_eq_none_iff.1 (topo_sort_ok_findViol_none hok)
  have hlenres : res.length = mods.length := hperm.length_eq
  have hEmem : (mods.indexOf a, mods.indexOf b) ∈ presentEdges mods order :=
    mem_presentEdges (mem_presentPairs hab ha hb)
  have hanb : a ≠ b := by
    intro heq
    subst heq
    have hself : Relation.TransGen (edgeRel (presentEdges mods order))
        (mods.indexOf a) (mods.indexOf a) :=
      Relation.TransGen.single hEmem
    have : hasCycleB mods.length (presentEdges mods order) = true :=
      hasCycleB_iff.2 ⟨mods.indexOf a, List.indexOf_lt_length.2 ha, hself⟩
    rw [hc] at this
    cases this
  have hares : a ∈ res := hperm.mem_iff.2 ha
  have hbres : b ∈ res := hperm.mem_iff.2 hb
  have hpa : res.indexOf a < res.length := List.indexOf_lt_length.2 hares
  have hpb : res.indexOf b < res.length := List.indexOf_lt_length.2 hbres
  have hga : res.getD (res.indexOf a) "" = a := by
    rw [List.getD_eq_getElem res "" hpa, List.getElem_indexOf]
  have hgb : res.getD (res.indexOf b) "" = b := by
    rw [List.getD_eq_getElem res "" hpb, List.getElem_indexOf]
  have hne : res.indexOf a ≠ res.indexOf b := by
    intro heq
    apply hanb
    rw [← hga, ← hgb, heq]
  have hnotlt : ¬ res.indexOf b < res.indexOf a := by
    intro hlt
    have := hpoint (res.indexOf a) (hlenres ▸ hpa) (res.indexOf b) hlt
    rw [hga, hgb] at this
    exact this hEmem
  omega

/-- Witness for C2 at a concrete input. -/
theorem c2_topo_sort_respects_edges_witness :
    List.indexOf "a.archive" ["a.archive", "b.archive"]
      < List.indexOf "b.archive" ["a.archive", "b.archive"] :=
  c2_topo_sort_respects_edges ["b.archive", "a.archive"]
    [("a.archive", "b.archive")] (by decide)
    ["a.archive", "b.archive"] (by rfl)
    "a.archive" "b.archive" (by decide) (by decide) (by decide)

/-- Claim C3: For every duplicate-free mod list and every edge list,
`topo_sort` returns an error if and only if the directed graph restricted to
edges whose two endpoints both occur in the mod list contains a cycle; on
error only the error value is returned (the `Except` carries no partial
ordering). -/
theorem c3_topo_sort_error_iff_cycle (mods : List String)
    (order : List (String × String)) (hnd : mods.Nodup) :
    (∃ err, topo_sort mods order = .error err) ↔ hasRuleCycle mods order := by
  rw [topo_sort_error_iff]
  constructor
  · intro hc
    obtain ⟨v, hv, htrans⟩ := hasCycleB_iff.1 hc
    refine ⟨mods.getD v "", ?_⟩
    refine Relation.TransGen.lift (fun x => mods.getD x "") ?_ htrans
    intro x y hxy
    obtain ⟨a, b, hpair, ha, hb, rfl, rfl⟩ := presentEdges_to_pair hxy
    have hga : mods.getD (mods.indexOf a) "" = a := by
      rw [List.getD_eq_getElem mods "" (List.indexOf_lt_length.2 ha),
        List.getElem_indexOf]
    have hgb : mods.getD (mods.indexOf b) "" = b := by
      rw [List.getD_eq_getElem mods "" (List.indexOf_lt_length.2 hb),
        List.getElem_indexOf]
    show (mods.getD (List.indexOf a mods) "",
      mods.getD (List.indexOf b mods) "") ∈ presentPairs mods order
    rw [hga, hgb]
    exact hpair
  · rintro ⟨s, htrans⟩
    have hsmem : s ∈ mods := by
      cases htrans with
      | single h => exact (presentPairs_mem h).2.2
      | tail _ h => exact (presentPairs_mem h).2.2
    refine hasCycleB_iff.2
      ⟨mods.indexOf s, List.indexOf_lt_length.2 hsmem, ?_⟩
    exact Relation.TransGen.lift (fun m => mods.indexOf m)
      (fun a b hab => mem_presentEdges hab) htrans

/-- Witness for C3 at a concrete input: a two-cycle makes the sorter fail. -/
theorem c3_topo_sort_error_iff_cycle_witness :
    ∃ err, topo_sort ["a.archive", "b.archive"]
      [("a.archive", "b.archive"), ("b.archive", "a.archive")]
        = .error err :=
  by
  have h1 : ("a.archive", "b.archive") ∈ presentPairs
      ["a.archive", "b.archive"]
      [("a.archive", "b.archive"), ("b.archive", "a.archive")] := by decide
  have h2 : ("b.archive", "a.archive") ∈ presentPairs
      ["a.archive", "b.archive"]
      [("a.archive", "b.archive"), ("b.archive", "a.archive")] := by decide
  exact (c3_topo_sort_error_iff_cycle ["a.archive", "b.archive"]
      [("a.archive", "b.archive"), ("b.archive", "a.archive")]
      (by decide)).2
    ⟨"a.archive",
      Relation.TransGen.tail (Relation.TransGen.single h1) h2⟩

/-- Claim C4: Stability as an identity: for every duplicate-free mod list that
already satisfies every edge whose two endpoints are present (each such `a`
precedes its `b` in the input), `topo_sort` returns success and its output
equals the input list exactly. -/
theorem c4_topo_sort_stability (mods : List String)
    (order : List (String × String)) (hnd : mods.Nodup)
    (hsat : ∀ p ∈ order, p.1 ∈ mods → p.2 ∈ mods →
      mods.indexOf p.1 < mods.indexOf p.2) :
    topo_sort mods order = .ok mods := by
  have hinc : ∀ p ∈ presentEdges mods order, p.1 < p.2 := by
    intro p hp
    rcases p with ⟨x, y⟩
    obtain ⟨a, b, hpair, ha, hb, rfl, rfl⟩ := presentEdges_to_pair hp
    exact hsat (a, b) (presentPairs_mem hpair).1 ha hb
  have hlt : ∀ x y,
      Relation.TransGen (edgeRel (presentEdges mods order)) x y → x < y := by
    intro x y h
    induction h with
    | single h => exact hinc _ h
    | tail _ h ih => exact lt_trans ih (hinc _ h)
  have hnc : hasCycleB mods.length (presentEdges mods order) = false := by
    rw [hasCycleB, List.any_eq_false]
    intro v _ hdec
    have := hlt v v (mem_satReach_iff.1 (of_decide_eq_true hdec))
    omega
  have hfv : findViol (presentEdges mods order) (fun m => mods.indexOf m)
      mods mods.length = none := by
    rw [findViol_eq_none_iff]
    intro i hi j hj hmem
    have hj' : j < mods.length := lt_trans hj hi
    have hii : mods.indexOf (mods.getD i "") = i := by
      rw [List.getD_eq_getElem mods "" hi]
      exact nodup_indexOf_getElem hnd hi
    have hjj : mods.indexOf (mods.getD j "") = j := by
      rw [List.getD_eq_getElem mods "" hj']
      exact nodup_indexOf_getElem hnd hj'
    rw [hii, hjj] at hmem
    have := hinc _ hmem
    simp at this
    omega
  have hfix : ∀ fuel, sortPasses mods.length (presentEdges mods order)
      (fun m => mods.indexOf m) fuel mods = mods := by
    intro fuel
    cases fuel with
    | zero => rfl
    | succ f => simp [sortPasses, stable_topo_sort_inner, hfv]
  rw [topo_sort, if_neg (by rw [hnc]; simp), hfix]

/-- Witness for C4 at a concrete input. -/
theorem c4_topo_sort_stability_witness :
    topo_sort ["a.archive", "b.archive"] [("a.archive", "b.archive")]
      = .ok ["a.archive", "b.archive"] :=
  c4_topo_sort_stability ["a.archive", "b.archive"]
    [("a.archive", "b.archive")] (by decide) (by decide)

/-- Claim C8: Termination: for every duplicate-free mod list and edge list on
which the cycle check passes (`topo_sort` succeeds), the returned list is
obtained from the input by finitely many applications of
`stable_topo_sort_inner`, and on it `stable_topo_sort_inner` makes no
change: the loop reached its fixed point rather than running forever. -/
theorem c8_topo_sort_terminates (mods : List String)
    (order : List (String × String)) (hnd : mods.Nodup)
    (res : List String) (hok : topo_sort mods order = .ok res) :
    (∃ k : Nat,
      (fun r => (stable_topo_sort_inner mods.length
        (presentEdges mods order) (fun m => mods.indexOf m) r).2)^[k] mods
          = res)
    ∧ stable_topo_sort_inner mods.length (presentEdges mods order)
        (fun m => mods.indexOf m) res = (false, res) := by
  obtain ⟨hc, hres⟩ := topo_sort_ok_elim hok
  have hfix := topo_sort_ok_findViol_none hok
  constructor
  · obtain ⟨k, hk⟩ := sortPasses_iterate mods.length
      (presentEdges mods order) (fun m => mods.indexOf m)
      (sortFuel mods order) mods
    refine ⟨k, ?_⟩
    rw [hres, hk]
  · rw [stable_topo_sort_inner, hfix]

/-- Witness for C8 at a concrete input. -/
theorem c8_topo_sort_terminates_witness :
    (∃ k : Nat,
      (fun r => (stable_topo_sort_inner 2
        (presentEdges ["b.archive", "a.archive"]
          [("a.archive", "b.archive")])
        (fun m => List.indexOf m ["b.archive", "a.archive"]) r).2)^[k]
        ["b.archive", "a.archive"] = ["a.archive", "b.archive"])
    ∧ stable_topo_sort_inner 2
        (presentEdges ["b.archive", "a.archive"]
          [("a.archive", "b.archive")])
        (fun m => List.indexOf m ["b.archive", "a.archive"])
        ["a.archive", "b.archive"]
      = (false, ["a.archive", "b.archive"]) :=
  c8_topo_sort_terminates ["b.archive", "a.archive"]
    [("a.archive", "b.archive")] (by decide)
    ["a.archive", "b.archive"] (by rfl)

theorem splitFirstLine_snd_length (l : List Char) :
    (splitFirstLine l).2.length ≤ l.length := by
  simp only [splitFirstLine, List.length_drop]
  omega

/-! ### Parser claims -/

/-- Claim C6: The claim says parsing `[desc !/p/ e]` produces a `DESC` whose
negated flag is set, inverting evaluation relative to `[desc /p/ e]`.  The
code refutes this: `parse_desc_input`'s first block fires for any input
containing `/` — including `!/p/ e`, whose first `/` is at index 1 — so the
`!/` block is dead and the `!` contributes nothing; `DESC::new` receives no
negation flag at all (the source marks this `TODO fix negation`).  Both
forms parse to the **same** expression, so no evaluation can be
inverted. -/
theorem c6_desc_negation_ignored :
    parse_expression cyberpunk 64 "[desc !/p/ a.archive]".data
        = parse_expression cyberpunk 64 "[desc /p/ a.archive]".data
      ∧ parse_expression cyberpunk 64 "[desc !/p/ a.archive]".data
        = .ok (Expression.DESC (Expression.Atomic "a.archive") "p" false)
      ∧ parse_desc_input "!/p/ a.archive".data
        = parse_desc_input "/p/ a.archive".data :=
  ⟨rfl, rfl, rfl⟩

/-- Claim C9: The claim says `parse_rules_from_reader` returns `Ok` for every
input document, all failed chunks being logged and skipped.  The recovery
indeed catches every chunk `Err` (first two conjuncts: an empty document
and a document of only malformed chunks still succeed), but a `desc` body
containing exactly one `/` drives `parse_desc_input` into an out-of-range
slice — a panic, which aborts the entire call instead of skipping the
chunk (third conjunct). -/
theorem c9_parse_rules_from_reader_panics :
    parse_rules_from_reader cyberpunk [] = .ok []
      ∧ parse_rules_from_reader cyberpunk ["[unknownrule]", "not a rule"]
          = .ok []
      ∧ parse_rules_from_reader cyberpunk ["[note]", "[desc / a.archive]"]
          = .error "slice index starts after end" :=
  ⟨rfl, rfl, rfl⟩

/-- Claim C7, counterexample:  A `[note inline]` chunk whose first body line
is the whitespace-led comment ` extra note` parses to a rule whose comment
is exactly `extra note`: the body comment **replaces** the inline comment
instead of being appended to it (the result does not even begin with
`inline`). -/
theorem c7_inline_comment_lost :
    parse_chunk cyberpunk "[note inline]\n extra note\na.archive\n".data
        = .ok (ERule.EWarningRule (EWarningRule.Note
            { comment := "extra note",
              expressions := [Expression.Atomic "a.archive"] }))
      ∧ List.isPrefixOf "inline".data "extra note".data = false :=
  ⟨rfl, by decide⟩

/-! ### The amended C7, in general form

For an arbitrary rule head `kw ++ c` that dispatches to a warning rule of
any of the four kinds (`c` is the inline comment), an arbitrary nonempty
list `P` of whitespace-led body comment lines (each starting with a space
or a tab, newline- and semicolon-free, none entirely whitespace) and an
arbitrary proper first body line, the rule handed to the body parser
carries as its comment the trimmed **concatenation** `trimChars P.flatten`
of the comment lines alone — the inline comment is discarded — and the
comment lines are consumed: the body handed over is exactly the remaining
line. Specialised end to end to all four warning kinds.
-/
theorem parse_rule_expression_aux_no_bracket :
    ∀ (c : List Char), (∀ ch ∈ c, ch ≠ '[' ∧ ch ≠ ']') →
      ∀ (buffer rest : List Char),
        parse_rule_expression_aux 1 buffer (c ++ ']' :: rest)
          = some ((buffer ++ c) ++ [']'], rest) := by
  intro c
  induction c with
  | nil =>
    intro _ buffer rest
    simp [parse_rule_expression_aux]
  | cons ch cs ih =>
    intro hc buffer rest
    have h1 : ch ≠ '[' := (hc ch (List.mem_cons_self _ _)).1
    have h2 : ch ≠ ']' := (hc ch (List.mem_cons_self _ _)).2
    show parse_rule_expression_aux 1 buffer (ch :: (cs ++ ']' :: rest)) = _
    rw [parse_rule_expression_aux, if_neg h1, if_neg h2,
      ih (fun x hx => hc x (List.mem_cons_of_mem _ hx)) (buffer ++ [ch]) rest]
    simp

theorem splitOnNl_append (xs : List Char) (hxs : ∀ ch ∈ xs, ch ≠ '\n') :
    ∀ rest, splitOnNl (xs ++ '\n' :: rest) = xs :: splitOnNl rest := by
  induction xs with
  | nil =>
    intro rest
    simp [splitOnNl]
  | cons ch cs ih =>
    intro rest
    have h1 : ch ≠ '\n' := hxs ch (List.mem_cons_self _ _)
    show splitOnNl (ch :: (cs ++ '\n' :: rest)) = _
    rw [splitOnNl, if_neg h1,
      ih (fun x hx => hxs x (List.mem_cons_of_mem _ hx)) rest]

theorem contains_eq_false_of_not_mem {l : List Char} {c : Char}
    (h : ∀ ch ∈ l, ch ≠ c) : l.contains c = false := by
  induction l with
  | nil => rfl
  | cons a as ih =>
    have h1 : a ≠ c := h a (List.mem_cons_self _ _)
    simp only [List.contains_cons]
    rw [ih (fun x hx => h x (List.mem_cons_of_mem _ hx))]
    simp only [Bool.or_false]
    exact beq_eq_false_iff_ne.2 (fun hh => h1 hh.symm)

theorem stripLineComment_id {l : List Char} (h : ∀ ch ∈ l, ch ≠ ';') :
    stripLineComment l = l := by
  rw [stripLineComment, contains_eq_false_of_not_mem h]
  rfl

/-- Definitional unfolding of `parse_chunk` on a chunk that starts with
`[`, used to step the symbolic computation in the amended C7. -/
theorem parse_chunk_cons (p : Parser) (rest : List Char) :
    parse_chunk p ('[' :: rest)
      = match parse_rule_expression rest with
        | none => .error (.err "Parsing error: unknown rule")
        | some (rule_expression, rest') =>
          match ruleFromHead rule_expression.dropLast with
          | .error e => .error e
          | .ok rule =>
            let lines := ((linesOfChars rest').map stripLineComment).filter
              (fun l => decide (trimChars l ≠ []))
            let rb := bodyFold lines rule true [] []
            ERule.parse p rb.1 (trimChars rb.2) := rfl

/-- Definitional evaluation of `parse_chunk` once the rule expression and
the head dispatch are known. -/
theorem parse_chunk_eval (p : Parser) (rest head rest' : List Char)
    (rule : ERule)
    (h1 : parse_rule_expression rest = some (head, rest'))
    (h2 : ruleFromHead head.dropLast = .ok rule) :
    parse_chunk p ('[' :: rest)
      = ERule.parse p
          (bodyFold (((linesOfChars rest').map stripLineComment).filter
            (fun l => decide (trimChars l ≠ []))) rule true [] []).1
          (trimChars ((bodyFold (((linesOfChars rest').map
              stripLineComment).filter
            (fun l => decide (trimChars l ≠ []))) rule true [] []).2)) := by
  rw [parse_chunk_cons, h1]
  show (match ruleFromHead head.dropLast with
        | .error e => Except.error e
        | .ok rule =>
          let lines := ((linesOfChars rest').map stripLineComment).filter
            (fun l => decide (trimChars l ≠ []))
          let rb := bodyFold lines rule true [] []
          ERule.parse p rb.1 (trimChars rb.2)) = _
  rw [h2]

theorem splitOnNl_comment_lines (body : List Char)
    (hbody : ∀ ch ∈ body, ch ≠ '\n') :
    ∀ (P : List (List Char)), (∀ l ∈ P, ∀ ch ∈ l, ch ≠ '\n') →
      splitOnNl (P.foldr (fun l acc => l ++ '\n' :: acc) (body ++ ['\n']))
        = P ++ [body, []] := by
  intro P
  induction P with
  | nil =>
    intro _
    show splitOnNl (body ++ '\n' :: []) = _
    rw [splitOnNl_append body hbody]
    rfl
  | cons q Q ih =>
    intro hP
    show splitOnNl (q ++ '\n'
        :: Q.foldr (fun l acc => l ++ '\n' :: acc) (body ++ ['\n'])) = _
    rw [splitOnNl_append q (hP q (List.mem_cons_self _ _)),
      ih (fun l hl => hP l (List.mem_cons_of_mem _ hl))]
    rfl

theorem linesOfChars_comment_lines (body : List Char)
    (hbody : ∀ ch ∈ body, ch ≠ '\n')
    (P : List (List Char)) (hP : ∀ l ∈ P, ∀ ch ∈ l, ch ≠ '\n') :
    linesOfChars
        ('\n' :: P.foldr (fun l acc => l ++ '\n' :: acc) (body ++ ['\n']))
      = [] :: (P ++ [body]) := by
  have e1 : splitOnNl ('\n'
        :: P.foldr (fun l acc => l ++ '\n' :: acc) (body ++ ['\n']))
      = ([] :: (P ++ [body])) ++ [[]] := by
    show [] :: splitOnNl
        (P.foldr (fun l acc => l ++ '\n' :: acc) (body ++ ['\n'])) = _
    rw [splitOnNl_comment_lines body hbody P hP]
    simp
  have e2 : linesOfChars ('\n'
        :: P.foldr (fun l acc => l ++ '\n' :: acc) (body ++ ['\n']))
      = (if (splitOnNl ('\n' :: P.foldr (fun l acc => l ++ '\n' :: acc)
              (body ++ ['\n']))).getLast? = some []
         then (splitOnNl ('\n' :: P.foldr (fun l acc => l ++ '\n' :: acc)
              (body ++ ['\n']))).dropLast
         else splitOnNl ('\n' :: P.foldr (fun l acc => l ++ '\n' :: acc)
              (body ++ ['\n']))) := rfl
  rw [e2, e1, List.getLast?_concat, if_pos rfl, List.dropLast_concat]

theorem stripFilter_comment_lines (P : List (List Char))
    (h : ∀ l ∈ P, (∀ ch ∈ l, ch ≠ ';') ∧ trimChars l ≠ []) :
    ((P.map stripLineComment).filter (fun l => decide (trimChars l ≠ [])))
      = P := by
  induction P with
  | nil => rfl
  | cons q Q ih =>
    rw [List.map_cons,
      stripLineComment_id (h q (List.mem_cons_self _ _)).1,
      List.filter_cons,
      if_pos (decide_eq_true (h q (List.mem_cons_self _ _)).2),
      ih (fun l hl => h l (List.mem_cons_of_mem _ hl))]

theorem bodyFold_comment_lines (ls : List (List Char)) (rule : ERule) :
    ∀ (P : List (List Char)) (comment body : List Char),
      (∀ l ∈ P, ∃ ch rest, l = ch :: rest ∧ ch.isWhitespace = true) →
      bodyFold (P ++ ls) rule true comment body
        = bodyFold ls rule true (comment ++ P.flatten) body := by
  intro P
  induction P with
  | nil =>
    intro comment body _
    simp
  | cons q Q ih =>
    intro comment body hP
    obtain ⟨ch, rest, rfl, hws⟩ := hP q (List.mem_cons_self _ _)
    show bodyFold ((ch :: rest) :: (Q ++ ls)) rule true comment body = _
    rw [bodyFold]
    simp only [List.head?_cons, hws, if_true, if_pos]
    rw [ih (comment ++ (ch :: rest)) body
      (fun l hl => hP l (List.mem_cons_of_mem _ hl))]
    simp [List.append_assoc]

theorem bodyFold_first_proper (ch : Char) (rest : List Char)
    (hws : ch.isWhitespace = false)
    (ls : List (List Char)) (rule : ERule) (comment body : List Char)
    (hcom : comment ≠ []) :
    bodyFold ((ch :: rest) :: ls) rule true comment body
      = bodyFold ls
          (rule.set_warning_comment (String.mk (trimChars comment)))
          false [] (body ++ (ch :: rest) ++ ['\n']) := by
  rw [bodyFold]
  simp only [List.head?_cons, hws, if_pos, Bool.false_eq_true, if_false,
    if_neg, hcom, ne_eq, not_false_eq_true, if_true]

theorem parse_chunk_comment_general (p : Parser) (kw c body : List Char)
    (rule0 : EWarningRule) (P : List (List Char))
    (hkw : ∀ ch ∈ kw, ch ≠ '[' ∧ ch ≠ ']')
    (hc : ∀ ch ∈ c, ch ≠ '[' ∧ ch ≠ ']')
    (hhead : ruleFromHead (kw ++ c) = .ok (.EWarningRule rule0))
    (hP : P ≠ [])
    (hPl : ∀ l ∈ P, (l.head? = some ' ' ∨ l.head? = some '\t')
        ∧ (∀ ch ∈ l, ch ≠ '\n' ∧ ch ≠ ';') ∧ trimChars l ≠ [])
    (hbody : ∀ ch ∈ body, ch ≠ '\n' ∧ ch ≠ ';')
    (hbhead : ∃ ch rest, body = ch :: rest ∧ ch.isWhitespace = false)
    (hbkeep : trimChars body ≠ []) :
    parse_chunk p ('[' :: ((kw ++ c) ++ ']' :: '\n'
        :: P.foldr (fun l acc => l ++ '\n' :: acc) (body ++ ['\n'])))
      = ERule.parse p
          (ERule.EWarningRule (rule0.set_comment
            (String.mk (trimChars P.flatten))))
          (trimChars (body ++ ['\n'])) := by
  obtain ⟨bch, brest, hbeq, hbws⟩ := hbhead
  have hws : ∀ l ∈ P, ∃ ch rest, l = ch :: rest ∧ ch.isWhitespace = true := by
    intro l hl
    match l, (hPl l hl).1 with
    | ch :: rest, h =>
      refine ⟨ch, rest, rfl, ?_⟩
      rcases h with h | h <;>
        · rw [List.head?_cons, Option.some.injEq] at h
          rw [h]
          decide
  have hflat : P.flatten ≠ [] := by
    match P, hP with
    | l :: Q, _ =>
      obtain ⟨ch, rest, rfl, _⟩ := hws _ (List.mem_cons_self _ _)
      simp
  have hbr : ∀ ch ∈ (kw ++ c), ch ≠ '[' ∧ ch ≠ ']' := by
    intro ch hch
    rcases List.mem_append.1 hch with h | h
    · exact hkw ch h
    · exact hc ch h
  have h1 : parse_rule_expression ((kw ++ c) ++ ']' :: '\n'
        :: P.foldr (fun l acc => l ++ '\n' :: acc) (body ++ ['\n']))
      = some ((kw ++ c) ++ [']'], '\n'
          :: P.foldr (fun l acc => l ++ '\n' :: acc) (body ++ ['\n'])) := by
    rw [parse_rule_expression]
    simpa using parse_rule_expression_aux_no_bracket _ hbr [] _
  have h2 : ruleFromHead ((kw ++ c) ++ [']']).dropLast
      = .ok (.EWarningRule rule0) := by
    rw [List.dropLast_concat]
    exact hhead
  have hPnl : ∀ l ∈ P, ∀ ch ∈ l, ch ≠ '\n' := by
    intro l hl ch hch
    exact ((hPl l hl).2.1 ch hch).1
  have hbnl : ∀ ch ∈ body, ch ≠ '\n' := fun ch hch => (hbody ch hch).1
  have hlines := linesOfChars_comment_lines body hbnl P hPnl
  have hfilter : ((([] :: (P ++ [body])).map stripLineComment).filter
        (fun l => decide (trimChars l ≠ [])))
      = P ++ [body] := by
    rw [List.map_cons, List.filter_cons,
      show stripLineComment ([] : List Char) = [] from rfl,
      if_neg (by decide), List.map_append, List.filter_append,
      stripFilter_comment_lines P
        (fun l hl => ⟨fun ch hch => ((hPl l hl).2.1 ch hch).2,
          (hPl l hl).2.2⟩),
      List.map_cons, List.map_nil,
      stripLineComment_id (fun ch hch => (hbody ch hch).2),
      List.filter_cons, if_pos (decide_eq_true hbkeep)]
    rfl
  have hfold : bodyFold (P ++ [body]) (ERule.EWarningRule rule0) true [] []
      = (ERule.EWarningRule (rule0.set_comment
          (String.mk (trimChars P.flatten))), body ++ ['\n']) := by
    rw [bodyFold_comment_lines [body] (ERule.EWarningRule rule0) P [] [] hws,
      List.nil_append, hbeq,
      bodyFold_first_proper bch brest hbws [] _ _ [] hflat]
    rw [List.nil_append]
    rfl
  rw [parse_chunk_eval p _ ((kw ++ c) ++ [']']) _ (ERule.EWarningRule rule0)
    h1 h2, hlines, hfilter, hfold]

/-- Claim C7, amended:  For every parser, every rule head `kw ++ c` that
dispatches to a warning rule `rule0` of any of the four kinds (so `c` is the
inline comment), every nonempty list `P` of space- or tab-led comment lines
(newline- and semicolon-free, none entirely whitespace) and every proper
body line, `parse_chunk` hands the rule's own body parser (i) the rule with
its comment **replaced** — via `set_comment`, which assigns — by the trimmed
concatenation of the comment lines, the inline comment being discarded, and
(ii) a body from which the comment lines have been consumed (first
conjunct); end to end, a chunk of each of the four warning kinds with inline
comment `c`, comment lines `P` and a minimal body parses to a rule whose
comment is exactly `String.mk (trimChars P.flatten)` and whose expressions
come from the remaining body line alone (last four conjuncts). -/
theorem c7_body_comment_replaces_inline (p : Parser)
    (kw c body : List Char) (rule0 : EWarningRule) (P : List (List Char))
    (hkw : ∀ ch ∈ kw, ch ≠ '[' ∧ ch ≠ ']')
    (hc : ∀ ch ∈ c, ch ≠ '[' ∧ ch ≠ ']')
    (hhead : ruleFromHead (kw ++ c) = .ok (.EWarningRule rule0))
    (hP : P ≠ [])
    (hPl : ∀ l ∈ P, (l.head? = some ' ' ∨ l.head? = some '\t')
        ∧ (∀ ch ∈ l, ch ≠ '\n' ∧ ch ≠ ';') ∧ trimChars l ≠ [])
    (hbody : ∀ ch ∈ body, ch ≠ '\n' ∧ ch ≠ ';')
    (hbhead : ∃ ch rest, body = ch :: rest ∧ ch.isWhitespace = false)
    (hbkeep : trimChars body ≠ []) :
    parse_chunk p ('[' :: ((kw ++ c) ++ ']' :: '\n'
        :: P.foldr (fun l acc => l ++ '\n' :: acc) (body ++ ['\n'])))
      = ERule.parse p
          (ERule.EWarningRule (rule0.set_comment
            (String.mk (trimChars P.flatten))))
          (trimChars (body ++ ['\n']))
    ∧ parse_chunk cyberpunk ('[' :: (("note ".data ++ c) ++ ']' :: '\n'
        :: P.foldr (fun l acc => l ++ '\n' :: acc)
          ("a.archive".data ++ ['\n'])))
      = .ok (ERule.EWarningRule (EWarningRule.Note
          { comment := String.mk (trimChars P.flatten),
            expressions := [Expression.Atomic "a.archive"] }))
    ∧ parse_chunk cyberpunk ('[' :: (("conflict ".data ++ c) ++ ']' :: '\n'
        :: P.foldr (fun l acc => l ++ '\n' :: acc)
          ("a.archive".data ++ ['\n'])))
      = .ok (ERule.EWarningRule (EWarningRule.Conflict
          { comment := String.mk (trimChars P.flatten),
            expressions := [Expression.Atomic "a.archive"] }))
    ∧ parse_chunk cyberpunk ('[' :: (("requires ".data ++ c) ++ ']' :: '\n'
        :: P.foldr (fun l acc => l ++ '\n' :: acc)
          ("a.archive b.archive".data ++ ['\n'])))
      = .ok (ERule.EWarningRule (EWarningRule.Requires
          { comment := String.mk (trimChars P.flatten),
            expression_a := some (Expression.Atomic "a.archive"),
            expression_b := some (Expression.Atomic "b.archive") }))
    ∧ parse_chunk cyberpunk ('[' :: (("patch ".data ++ c) ++ ']' :: '\n'
        :: P.foldr (fun l acc => l ++ '\n' :: acc)
          ("a.archive b.archive".data ++ ['\n'])))
      = .ok (ERule.EWarningRule (EWarningRule.Patch
          { comment := String.mk (trimChars P.flatten),
            expression_a := some (Expression.Atomic "a.archive"),
            expression_b := some (Expression.Atomic "b.archive") })) := by
  refine ⟨parse_chunk_comment_general p kw c body rule0 P hkw hc hhead hP hPl
    hbody hbhead hbkeep, ?_, ?_, ?_, ?_⟩
  · rw [parse_chunk_comment_general cyberpunk "note ".data c
      "a.archive".data
      (EWarningRule.Note
        { comment := String.mk (trimChars (' ' :: c)), expressions := [] })
      P (by decide) hc rfl hP hPl (by decide)
      ⟨'a', ".archive".data, rfl, by decide⟩ (by decide)]
    rfl
  · rw [parse_chunk_comment_general cyberpunk "conflict ".data c
      "a.archive".data
      (EWarningRule.Conflict
        { comment := String.mk (trimChars (' ' :: c)), expressions := [] })
      P (by decide) hc rfl hP hPl (by decide)
      ⟨'a', ".archive".data, rfl, by decide⟩ (by decide)]
    rfl
  · rw [parse_chunk_comment_general cyberpunk "requires ".data c
      "a.archive b.archive".data
      (EWarningRule.Requires
        { comment := String.mk (trimChars (' ' :: c)),
          expression_a := none, expression_b := none })
      P (by decide) hc rfl hP hPl (by decide)
      ⟨'a', ".archive b.archive".data, rfl, by decide⟩ (by decide)]
    rfl
  · rw [parse_chunk_comment_general cyberpunk "patch ".data c
      "a.archive b.archive".data
      (EWarningRule.Patch
        { comment := String.mk (trimChars (' ' :: c)),
          expression_a := none, expression_b := none })
      P (by decide) hc rfl hP hPl (by decide)
      ⟨'a', ".archive b.archive".data, rfl, by decide⟩ (by decide)]
    rfl

/-- Witness for the amended C7 at a concrete input: a `note` chunk with
inline comment `inline` and the two comment lines ` extra` and `\tmore`. -/
theorem c7_body_comment_replaces_inline_witness :
    parse_chunk cyberpunk ('[' :: (("note ".data ++ "inline".data)
        ++ ']' :: '\n'
        :: [" extra".data, '\t' :: "more".data].foldr
          (fun l acc => l ++ '\n' :: acc) ("a.archive".data ++ ['\n'])))
      = .ok (ERule.EWarningRule (EWarningRule.Note
          { comment := String.mk
              (trimChars ([" extra".data, '\t' :: "more".data].flatten)),
            expressions := [Expression.Atomic "a.archive"] })) :=
  (c7_body_comment_replaces_inline cyberpunk "note ".data "inline".data
    "a.archive".data
    (EWarningRule.Note { comment := "inline", expressions := [] })
    [" extra".data, '\t' :: "more".data]
    (by decide) (by decide) rfl (by decide) (by decide) (by decide)
    ⟨'a', ".archive".data, rfl, by decide⟩ (by decide)).2.1

end Plox
